import Mathlib

/-!
Shallow embedding of the deployment-plan execution engine in
src/chalice/deploy/executor.py: the variable resolver, the plan executor,
the resource-record index, and the explain renderer, together with proofs
about the claims of the specification.

Python values flowing through the engine (instruction parameters, stored
variables, resolved results) are modelled by the recursive type Value.
Python dicts with string keys are modelled as insertion-ordered association
lists with unique keys; dict assignment is dinsert, dict.update is
dictUpdate, dict literals are buildDict.  Python exceptions are modelled
with Except.
-/

namespace Chalice

/-- The recursive structural value type: scalars, sequences and string-keyed
mappings, plus the three special leaf forms taking part in resolution:
planner.Variable (constructor var), planner.StringFormat (constructor
strfmt) and models.Placeholder (constructor placeholder). -/
inductive Value where
  | none
  | bool (b : Bool)
  | int (n : Int)
  | str (s : String)
  | bytes (bs : List Nat)
  | var (name : String)
  | strfmt (template : String) (variableNames : List String)
  | placeholder
  | list (items : List Value)
  | dict (entries : List (String × Value))

/-- A Python dict with string keys, as an insertion-ordered association list. -/
abbrev PyDict := List (String × Value)

mutual

/-- Structural boolean equality on values (Python == on these shapes). -/
def Value.beq : Value → Value → Bool
  | .none, .none => true
  | .bool a, .bool b => a == b
  | .int a, .int b => a == b
  | .str a, .str b => a == b
  | .bytes a, .bytes b => a == b
  | .var a, .var b => a == b
  | .strfmt t a, .strfmt u b => t == u && a == b
  | .placeholder, .placeholder => true
  | .list xs, .list ys => Value.beqList xs ys
  | .dict xs, .dict ys => Value.beqDict xs ys
  | _, _ => false

def Value.beqList : List Value → List Value → Bool
  | [], [] => true
  | x :: xs, y :: ys => Value.beq x y && Value.beqList xs ys
  | _, _ => false

def Value.beqDict : List (String × Value) → List (String × Value) → Bool
  | [], [] => true
  | (k, v) :: xs, (k2, v2) :: ys => k == k2 && Value.beq v v2 && Value.beqDict xs ys
  | _, _ => false

end

/-- Python truthiness: None, False, zero, the empty string, empty bytes and
empty collections are falsy; Variable, StringFormat and Placeholder objects
are truthy. -/
def Value.truthy : Value → Bool
  | .none => false
  | .bool b => b
  | .int n => !(n == 0)
  | .str s => !(s == "")
  | .bytes bs => !bs.isEmpty
  | .list xs => !xs.isEmpty
  | .dict es => !es.isEmpty
  | _ => true

/-- isinstance(value, (dict, list)). -/
def Value.isCollection : Value → Bool
  | .dict _ => true
  | .list _ => true
  | _ => false

/-- isinstance(value, dict). -/
def Value.isDict : Value → Bool
  | .dict _ => true
  | _ => false

/-- Lookup in a Python dict (d[k], None on absence reported by the caller). -/
def dlookup : PyDict → String → Option Value
  | [], _ => Option.none
  | (k2, v) :: rest, k => if k2 = k then some v else dlookup rest k

/-- Python dict assignment d[k] = v: overwrite in place if the key is
present (keeping its position), else append at the end. -/
def dinsert : PyDict → String → Value → PyDict
  | [], k, v => [(k, v)]
  | (k2, v2) :: rest, k, v =>
    if k2 = k then (k2, v) :: rest else (k2, v2) :: dinsert rest k v

/-- Python d.update(payload): assign every key of the payload in order. -/
def dictUpdate (d : PyDict) (payload : PyDict) : PyDict :=
  payload.foldl (fun acc p => dinsert acc p.1 p.2) d

/-- A Python dict literal: later duplicate keys overwrite earlier ones. -/
def buildDict (items : List (String × Value)) : PyDict :=
  items.foldl (fun acc p => dinsert acc p.1 p.2) []

/-- The single quote character, used by the display functions. -/
def squote : String := String.singleton (Char.ofNat 39)

/-- Opening brace character. -/
def lbraceChar : Char := Char.ofNat 123

/-- Closing brace character. -/
def rbraceChar : Char := Char.ofNat 125

/-- Display of one byte inside a bytes literal (display model: printable
ASCII shown as itself, anything else as a question mark). -/
def byteChar (n : Nat) : Char :=
  if 32 ≤ n ∧ n ≤ 126 then Char.ofNat n else Char.ofNat 63

mutual

/-- Python str(value), a display model.  Strings display as themselves;
everything else displays as its repr. -/
def pyStr : Value → String
  | .str s => s
  | v => pyRepr v

/-- Python repr(value), a display model.  Container reprs follow the Python
syntax; the reprs of the planner and model objects are modelled from the
spec (they are defined outside src/ and are display-only). -/
def pyRepr : Value → String
  | .none => "None"
  | .bool b => if b then "True" else "False"
  | .int n => toString n
  | .str s => squote ++ s ++ squote
  | .bytes bs => "b" ++ squote ++ String.mk (bs.map byteChar) ++ squote
  | .var n => "Variable(" ++ n ++ ")"
  | .strfmt t _ => "StringFormat(" ++ t ++ ")"
  | .placeholder => "Placeholder"
  | .list xs => "[" ++ pyReprList xs ++ "]"
  | .dict es => "\x7b" ++ pyReprDict es ++ "\x7d"

def pyReprList : List Value → String
  | [] => ""
  | [x] => pyRepr x
  | x :: xs => pyRepr x ++ ", " ++ pyReprList xs

def pyReprDict : List (String × Value) → String
  | [] => ""
  | [(k, v)] => squote ++ k ++ squote ++ ": " ++ pyRepr v
  | (k, v) :: es => squote ++ k ++ squote ++ ": " ++ pyRepr v ++ ", " ++ pyReprDict es

end

mutual

/-- template.format(**bindings), a model of Python str.format for templates
whose slots all appear in the bindings and which use no brace escapes
(the only templates the planner builds). -/
def formatChars : List Char → PyDict → List Char
  | [], _ => []
  | c :: rest, b =>
    if c = lbraceChar then substChars rest [] b
    else c :: formatChars rest b

/-- Scan a slot name up to the closing brace, then substitute the bound
value and continue formatting. -/
def substChars : List Char → List Char → PyDict → List Char
  | [], _, _ => []
  | c :: rest, acc, b =>
    if c = rbraceChar then
      (pyStr ((dlookup b (String.mk acc.reverse)).getD Value.none)).data
        ++ formatChars rest b
    else substChars rest (c :: acc) b

end

/-- template.format(**bindings) on strings. -/
def formatTemplate (template : String) (bindings : PyDict) : String :=
  String.mk (formatChars template.data bindings)

/-- Python str.split with a one-character separator, on character lists:
splitting the empty text yields one empty piece, and each separator
occurrence starts a new piece. -/
def splitOnChar (sep : Char) : List Char → List (List Char)
  | [] => [[]]
  | c :: rest =>
    let r := splitOnChar sep rest
    if c = sep then [] :: r
    else
      match r with
      | h :: t => (c :: h) :: t
      | [] => [[c]]

/-- Python s.split(sep) for a one-character separator. -/
def pySplit (s : String) (sep : Char) : List String :=
  (splitOnChar sep s.data).map String.mk

/-- The resolution-time failures: undefinedVariable models the KeyError
raised by a store lookup of an unbound name, unresolved models
UnresolvedValueError(key, value, method_name). -/
inductive ResolveError where
  | undefinedVariable (name : String)
  | unresolved (key : String) (value : Value) (methodName : String)

/-- The except UnresolvedValueError handler in the dict branch of
resolve_variables: e.key = k, re-raise.  A KeyError passes through. -/
def attachKey (k : String) : Except ResolveError Value → Except ResolveError Value
  | .error (.unresolved _ v m) => .error (.unresolved k v m)
  | r => r

/-- The dict comprehension of the StringFormat branch: look up each
referenced name in order, failing on the first unbound one. -/
def lookupAll : List String → PyDict → Except ResolveError PyDict
  | [], _ => .ok []
  | n :: rest, vars =>
    match dlookup vars n with
    | some v =>
      match lookupAll rest vars with
      | .ok b => .ok ((n, v) :: b)
      | .error e => .error e
    | Option.none => .error (.undefinedVariable n)

mutual

/-- VariableResolver.resolve_variables: structural recursion over the value,
substituting Variable and StringFormat leaves from the store, failing on
Placeholder leaves, and rebuilding containers. -/
def resolve_variables (value : Value) (vars : PyDict) : Except ResolveError Value :=
  match value with
  | .var name =>
    match dlookup vars name with
    | some v => .ok v
    | Option.none => .error (.undefinedVariable name)
  | .strfmt template names =>
    match lookupAll names vars with
    | .ok b => .ok (.str (formatTemplate template b))
    | .error e => .error e
  | .placeholder => .error (.unresolved "" .placeholder "")
  | .dict es =>
    match resolveDict es vars with
    | .ok rs => .ok (.dict rs)
    | .error e => .error e
  | .list xs =>
    match resolveList xs vars with
    | .ok rs => .ok (.list rs)
    | .error e => .error e
  | v => .ok v

/-- The dict branch: resolve every value in order, attaching the offending
key to an UnresolvedValueError as it propagates. -/
def resolveDict (es : List (String × Value)) (vars : PyDict) :
    Except ResolveError (List (String × Value)) :=
  match es with
  | [] => .ok []
  | (k, v) :: rest =>
    match attachKey k (resolve_variables v vars) with
    | .error e => .error e
    | .ok rv =>
      match resolveDict rest vars with
      | .ok rrest => .ok ((k, rv) :: rrest)
      | .error e => .error e

/-- The list branch: resolve every element in order, first failure wins. -/
def resolveList (xs : List Value) (vars : PyDict) :
    Except ResolveError (List Value) :=
  match xs with
  | [] => .ok []
  | v :: rest =>
    match resolve_variables v vars with
    | .error e => .error e
    | .ok rv =>
      match resolveList rest vars with
      | .ok rrest => .ok (rv :: rrest)
      | .error e => .error e

end

/-- Modelled from the spec: the closed instruction variant set of section 3
(the models module is outside src/).  Field names and order follow the
spec.  The constructor other models an instruction object of any further
class reaching the executor through its dynamic getattr dispatch, carrying
the class name and the attrs field mapping. -/
inductive Instruction where
  | apicall (method_name : String) (params : PyDict) (output_var : Option String)
  | copyvariable (from_var : String) (to_var : String)
  | storevalue (name : String) (value : Value)
  | recordresourcevariable (resource_type : String) (resource_name : String)
      (name : String) (variable_name : String)
  | recordresourcevalue (resource_type : String) (resource_name : String)
      (name : String) (value : Value)
  | jpsearch (expression : String) (input_var : String) (output_var : String)
  | builtinfunction (function_name : String) (args : Value) (output_var : String)
  | other (class_name : String) (fields : List (String × Value))

/-- instruction.__class__.__name__. -/
def Instruction.className : Instruction → String
  | .apicall _ _ _ => "APICall"
  | .copyvariable _ _ => "CopyVariable"
  | .storevalue _ _ => "StoreValue"
  | .recordresourcevariable _ _ _ _ => "RecordResourceVariable"
  | .recordresourcevalue _ _ _ _ => "RecordResourceValue"
  | .jpsearch _ _ _ => "JPSearch"
  | .builtinfunction _ _ _ => "BuiltinFunction"
  | .other c _ => c

/-- Failures surfacing from the executor: propagated resolution errors
(including KeyError on store lookups), the RuntimeError of the default
handler, the ValueError of an unknown builtin, failures of the external
operation provider or query engine, and the dynamic-typing errors of
parse_arn on malformed input. -/
inductive ExecError where
  | resolution (e : ResolveError)
  | unknownInstruction (class_name : String)
  | unknownBuiltin (function_name : String)
  | externalFailure (msg : String)
  | typeError
  | indexError

/-- The external collaborators: the operation provider called by method
name with resolved keyword arguments, and the declarative query engine
used by JPSearch.  Both live outside this module; their failures propagate
unchanged. -/
structure Externals where
  client : String → PyDict → Except ExecError Value
  jmespathSearch : String → Value → Except ExecError Value

/-- The mutable executor state: the variable store and the ordered
resource-record list.  The index _resource_value_index maps each recorded
name to the very record object held by resource_values, so the functional
model keeps only the list and finds records by their name entry. -/
structure ExecState where
  vars : PyDict
  resource_values : List PyDict

/-- The name a payload is keyed by: payload of the record handlers always
contains the key name, so the default never fires. -/
def recName (r : PyDict) : Value := (dlookup r "name").getD Value.none

/-- Merge one record payload into the indexed record list: a new name is
appended, an existing one has the new payload merged into its record
(dict.update, later writes winning per attribute). -/
def updateFirstRecord : List PyDict → Value → PyDict → List PyDict
  | [], _, _ => []
  | r :: rest, key, payload =>
    if Value.beq (recName r) key then dictUpdate r payload :: rest
    else r :: updateFirstRecord rest key payload

/-- Executor._add_to_deployed_values. -/
def _add_to_deployed_values (records : List PyDict) (payload : PyDict) : List PyDict :=
  let key := recName payload
  if records.any (fun r => Value.beq (recName r) key) then
    updateFirstRecord records key payload
  else records ++ [payload]

/-- Executor._resolve_variables: resolve the params of an APICall,
back-filling the method name into an UnresolvedValueError. -/
def _resolve_variables (method_name : String) (params : PyDict) (vars : PyDict) :
    Except ResolveError PyDict :=
  match resolveDict params vars with
  | .ok r => .ok r
  | .error (.unresolved k v _) => .error (.unresolved k v method_name)
  | .error e => .error e

/-- Executor._do_apicall.  The provider result is stored when output_var
is set. -/
def _do_apicall (ext : Externals) (st : ExecState) (method_name : String)
    (params : PyDict) (output_var : Option String) : Except ExecError ExecState :=
  match _resolve_variables method_name params st.vars with
  | .error e => .error (.resolution e)
  | .ok kwargs =>
    match ext.client method_name kwargs with
    | .error e => .error e
    | .ok result =>
      match output_var with
      | some o => .ok { st with vars := dinsert st.vars o result }
      | Option.none => .ok st

/-- Executor._do_copyvariable: variables[to_var] = variables[from_var],
KeyError when the source is unbound. -/
def _do_copyvariable (st : ExecState) (from_var to_var : String) :
    Except ExecError ExecState :=
  match dlookup st.vars from_var with
  | some v => .ok { st with vars := dinsert st.vars to_var v }
  | Option.none => .error (.resolution (.undefinedVariable from_var))

/-- Executor._do_storevalue: resolve the value, then store it. -/
def _do_storevalue (st : ExecState) (name : String) (value : Value) :
    Except ExecError ExecState :=
  match resolve_variables value st.vars with
  | .ok r => .ok { st with vars := dinsert st.vars name r }
  | .error e => .error (.resolution e)

/-- Executor._do_recordresourcevariable: a three-entry payload dict literal
whose attribute value is a store lookup. -/
def _do_recordresourcevariable (st : ExecState) (resource_type resource_name
    name variable_name : String) : Except ExecError ExecState :=
  match dlookup st.vars variable_name with
  | some v =>
    let payload := buildDict [("name", .str resource_name),
      ("resource_type", .str resource_type), (name, v)]
    .ok { st with resource_values := _add_to_deployed_values st.resource_values payload }
  | Option.none => .error (.resolution (.undefinedVariable variable_name))

/-- Executor._do_recordresourcevalue: same payload with a literal value. -/
def _do_recordresourcevalue (st : ExecState) (resource_type resource_name
    name : String) (value : Value) : Except ExecError ExecState :=
  let payload := buildDict [("name", .str resource_name),
    ("resource_type", .str resource_type), (name, value)]
  .ok { st with resource_values := _add_to_deployed_values st.resource_values payload }

/-- Executor._do_jpsearch: query the stored input value, store the result. -/
def _do_jpsearch (ext : Externals) (st : ExecState)
    (expression input_var output_var : String) : Except ExecError ExecState :=
  match dlookup st.vars input_var with
  | some v =>
    match ext.jmespathSearch expression v with
    | .ok r => .ok { st with vars := dinsert st.vars output_var r }
    | .error e => .error e
  | Option.none => .error (.resolution (.undefinedVariable input_var))

/-- Executor._do_builtinfunction: the registry holds only parse_arn, which
resolves the args, splits the first element on colons and decomposes it
positionally; any other function name raises ValueError. -/
def _do_builtinfunction (st : ExecState) (function_name : String) (args : Value)
    (output_var : String) : Except ExecError ExecState :=
  if function_name = "parse_arn" then
    match resolve_variables args st.vars with
    | .error e => .error (.resolution e)
    | .ok resolved =>
      match resolved with
      | .list (first :: _) =>
        match first with
        | .str s =>
          let parts := pySplit s ':'
          let result := Value.dict [("service", .str (parts.getD 2 "")),
            ("region", .str (parts.getD 3 "")), ("account_id", .str (parts.getD 4 ""))]
          if 5 ≤ parts.length then
            .ok { st with vars := dinsert st.vars output_var result }
          else .error .indexError
        | _ => .error .typeError
      | .list [] => .error .indexError
      | _ => .error .typeError
  else .error (.unknownBuiltin function_name)

/-- One step of the getattr dispatch of Executor.execute: each recognized
class name reaches its handler, anything else reaches _default_handler,
whose RuntimeError names the class. -/
def execute_instruction (ext : Externals) (st : ExecState) :
    Instruction → Except ExecError ExecState
  | .apicall m p o => _do_apicall ext st m p o
  | .copyvariable f t => _do_copyvariable st f t
  | .storevalue n v => _do_storevalue st n v
  | .recordresourcevariable rt rn n vn => _do_recordresourcevariable st rt rn n vn
  | .recordresourcevalue rt rn n v => _do_recordresourcevalue st rt rn n v
  | .jpsearch e i o => _do_jpsearch ext st e i o
  | .builtinfunction f a o => _do_builtinfunction st f a o
  | .other c _ => .error (.unknownInstruction c)

/-- The Executor.execute loop from a given state: strictly sequential,
aborting on the first failure.  The optional advisory messages of the plan
only write to the UI and do not affect the state, so the plan is modelled
by its instruction list. -/
def executeFrom (ext : Externals) : List Instruction → ExecState →
    Except ExecError ExecState
  | [], st => .ok st
  | i :: rest, st =>
    match execute_instruction ext st i with
    | .ok st2 => executeFrom ext rest st2
    | .error e => .error e

/-- Executor.execute on a fresh executor: empty store, empty record list. -/
def Executor.execute (ext : Externals) (plan : List Instruction) :
    Except ExecError ExecState :=
  executeFrom ext plan ⟨[], []⟩

/-! The explain renderer, DisplayOnlyExecutor.  It defines no per-variant
handlers, so the getattr dispatch sends every instruction, of any class,
to its _default_handler, which renders the instruction as rows.  The
output is modelled as the list of strings passed to ui.write. -/

/-- Left-justified %-n s: pad with spaces on the right to a minimum width. -/
def padRight (s : String) (n : Nat) : String :=
  s ++ String.mk (List.replicate (n - s.length) ' ')

/-- Right-justified %n s: pad with spaces on the left to a minimum width. -/
def padLeft (s : String) (n : Nat) : String :=
  String.mk (List.replicate (n - s.length) ' ') ++ s

/-- The vertical separator glyph. -/
def _LINE_VERTICAL : String := "│"

/-- Max length of a bytes object before it is truncated. -/
def _MAX_BYTE_LENGTH : Nat := 30

/-- A bytes value longer than the threshold. -/
def Value.isLongBytes : Value → Bool
  | .bytes bs => _MAX_BYTE_LENGTH < bs.length
  | _ => false

/-- Does the text start with an ASCII lowercase letter. -/
def startsLower : List Char → Bool
  | c :: _ => c.isLower
  | [] => false

/-- One re.sub pass of the pattern (.)([A-Z][a-z]+) with replacement
inserting an underscore between the groups, consuming matches left to
right.  The fuel, set by the caller to the length of the text, bounds the
scan; every step consumes at least one character, so it never runs out. -/
def usnake_sub1 : Nat → List Char → List Char
  | 0, cs => cs
  | _ + 1, [] => []
  | fuel + 1, c1 :: rest =>
    match rest with
    | c2 :: rest2 =>
      if c2.isUpper && startsLower rest2 then
        let lows := rest2.takeWhile (fun c => c.isLower)
        c1 :: '_' :: c2 :: (lows ++ usnake_sub1 fuel (rest2.dropWhile (fun c => c.isLower)))
      else c1 :: usnake_sub1 fuel (c2 :: rest2)
    | [] => [c1]

/-- One re.sub pass of the pattern ([a-z0-9])([A-Z]) with replacement
inserting an underscore between the groups. -/
def usnake_sub2 : List Char → List Char
  | [] => []
  | [c] => [c]
  | c1 :: c2 :: rest =>
    if (c1.isLower || c1.isDigit) && c2.isUpper then
      c1 :: '_' :: c2 :: usnake_sub2 rest
    else c1 :: usnake_sub2 (c2 :: rest)

/-- DisplayOnlyExecutor._upper_snake_case: the two regex passes followed
by upcasing. -/
def _upper_snake_case (s : String) : String :=
  String.mk ((usnake_sub2 (usnake_sub1 s.data.length s.data)).map Char.toUpper)

/-- Python str.upper, character by character. -/
def strUpper (s : String) : String := String.mk (s.data.map Char.toUpper)

/-- The synthesized reference name for a spilled value,
built from the upcased key and the current size of the overflow pool. -/
def spillToken (key : String) (n : Nat) : String :=
  "$\x7b" ++ strUpper key ++ "_" ++ Nat.repr n ++ "\x7d"

/-- One row of the indented sub-block a mapping field is rendered as. -/
def formatDictRow (key : String) (v : Value) : String :=
  padRight " " 31 ++ _LINE_VERTICAL ++ padRight " " 15 ++ _LINE_VERTICAL ++
    padLeft (key ++ ":") 20 ++ " " ++ padRight (pyStr v) 10

/-- The loop of DisplayOnlyExecutor._format_dict: skip falsy entries,
truncate oversized bytes inline, move collections into the overflow pool
under a synthesized token, and emit one row per remaining entry. -/
def _format_dict_go : List (String × Value) → PyDict → List String × PyDict
  | [], pool => ([], pool)
  | (key, value) :: rest, pool =>
    if value.truthy then
      let v1 := if value.isLongBytes then Value.str "<bytes>" else value
      let tok := spillToken key pool.length
      let v2 := if v1.isCollection then Value.str tok else v1
      let pool2 := if v1.isCollection then dinsert pool tok v1 else pool
      let r := _format_dict_go rest pool2
      (formatDictRow key v2 :: r.1, r.2)
    else _format_dict_go rest pool

/-- DisplayOnlyExecutor._format_dict: the joined sub-block (starting with
an empty line) and the updated overflow pool. -/
def _format_dict (d : PyDict) (pool : PyDict) : String × PyDict :=
  let r := _format_dict_go d pool
  (String.intercalate "\n" ("" :: r.1), r.2)

/-- Modelled from the spec: the attrs field mapping asdict(instruction)
iterates, with the field names and order of the section 3 variant list
(the models module is outside src/). -/
def Instruction.fields : Instruction → List (String × Value)
  | .apicall m p o => [("method_name", .str m), ("params", .dict p),
      ("output_var", match o with | some s => .str s | Option.none => .none)]
  | .copyvariable f t => [("from_var", .str f), ("to_var", .str t)]
  | .storevalue n v => [("name", .str n), ("value", v)]
  | .recordresourcevariable rt rn n vn => [("resource_type", .str rt),
      ("resource_name", .str rn), ("name", .str n), ("variable_name", .str vn)]
  | .recordresourcevalue rt rn n v => [("resource_type", .str rt),
      ("resource_name", .str rn), ("name", .str n), ("value", v)]
  | .jpsearch e i o => [("expression", .str e), ("input_var", .str i),
      ("output_var", .str o)]
  | .builtinfunction f a o => [("function_name", .str f), ("args", a),
      ("output_var", .str o)]
  | .other _ fs => fs

/-- One field row of DisplayOnlyExecutor._default_handler; the label is
the rendered instruction name on the first row and blank afterwards. -/
def instrFieldRow (label key vstr : String) : String :=
  padRight label 30 ++ " " ++ _LINE_VERTICAL ++ padLeft (key ++ ":") 20 ++
    " " ++ padRight vstr 10

/-- The field loop of DisplayOnlyExecutor._default_handler: mapping-valued
fields go through _format_dict, others are printed inline; a blank write
closes the instruction block. -/
def _default_handler_go : String → List (String × Value) → PyDict →
    List String × PyDict
  | _, [], pool => (["\n"], pool)
  | label, (key, value) :: rest, pool =>
    let fv := match value with
      | .dict es => _format_dict es pool
      | v => (pyStr v, pool)
    let r := _default_handler_go "" rest fv.2
    ((instrFieldRow label key fv.1 ++ "\n") :: r.1, r.2)

/-- DisplayOnlyExecutor._default_handler on one instruction: render the
class name as an upper-snake label and each field as a row. -/
def _default_handler_render (i : Instruction) (pool : PyDict) :
    List String × PyDict :=
  _default_handler_go (_upper_snake_case i.className) i.fields pool

/-- The instruction loop of DisplayOnlyExecutor.execute, threading the
overflow pool. -/
def renderAll : List Instruction → PyDict → List String × PyDict
  | [], pool => ([], pool)
  | i :: rest, pool =>
    let r1 := _default_handler_render i pool
    let r2 := renderAll rest r1.2
    (r1.1 ++ r2.1, r2.2)

/-- The per-entry writes of _write_spillover; pprint.pformat is modelled
by the repr display. -/
def spilloverEntryWrites : PyDict → List String
  | [] => []
  | (k, v) :: rest => (k ++ ":\n") :: (pyRepr v ++ "\n\n") :: spilloverEntryWrites rest

/-- DisplayOnlyExecutor._write_spillover: nothing when the pool is empty,
otherwise the labeled section followed by every pool entry. -/
def _write_spillover (pool : PyDict) : List String :=
  if pool.isEmpty then []
  else "Variable Pool\n" :: "=============\n\n" :: spilloverEntryWrites pool

/-- DisplayOnlyExecutor.execute: the header, every instruction rendered in
order through the default handler, then the overflow section. -/
def DisplayOnlyExecutor.execute (plan : List Instruction) : List String :=
  let r := renderAll plan []
  "Plan\n" :: "====\n\n" :: (r.1 ++ _write_spillover r.2)

/-! Specification-side definitions, used to state the claims: predicates
classifying values, and functions written from the words of the spec to be
compared with the functions translated from the source. -/

mutual

/-- Does a value contain the Placeholder sentinel anywhere. -/
def containsPlaceholder : Value → Bool
  | .placeholder => true
  | .list xs => containsPlaceholderList xs
  | .dict es => containsPlaceholderDict es
  | _ => false

def containsPlaceholderList : List Value → Bool
  | [] => false
  | x :: xs => containsPlaceholder x || containsPlaceholderList xs

def containsPlaceholderDict : List (String × Value) → Bool
  | [] => false
  | (_, v) :: es => containsPlaceholder v || containsPlaceholderDict es

end

mutual

/-- A value free of the three special leaf forms: it contains no Variable,
no StringFormat and no Placeholder, at any depth. -/
def plainValue : Value → Bool
  | .var _ => false
  | .strfmt _ _ => false
  | .placeholder => false
  | .list xs => plainValueList xs
  | .dict es => plainValueDict es
  | _ => true

def plainValueList : List Value → Bool
  | [] => true
  | x :: xs => plainValue x && plainValueList xs

def plainValueDict : List (String × Value) → Bool
  | [] => true
  | (_, v) :: es => plainValue v && plainValueDict es

end

/-- A store all of whose bound values are plain. -/
def plainStore (vars : PyDict) : Bool := vars.all (fun p => plainValue p.2)

mutual

/-- A value whose resolution cannot fail against the given store: it has
no Placeholder, and every name referenced by a Variable or StringFormat
leaf is bound. -/
def resolvable : Value → PyDict → Bool
  | .var n, vars => (dlookup vars n).isSome
  | .strfmt _ ns, vars => ns.all (fun n => (dlookup vars n).isSome)
  | .placeholder, _ => false
  | .list xs, vars => resolvableList xs vars
  | .dict es, vars => resolvableDict es vars
  | _, _ => true

def resolvableList : List Value → PyDict → Bool
  | [], _ => true
  | x :: xs, vars => resolvable x vars && resolvableList xs vars

def resolvableDict : List (String × Value) → PyDict → Bool
  | [], _ => true
  | (_, v) :: es, vars => resolvable v vars && resolvableDict es vars

end

mutual

/-- Written from the words of the spec: a structurally identical copy in
which every Variable leaf is replaced by the current store value of its
name, every StringFormat leaf by its substituted template string, and
every other scalar leaf is returned unchanged, with mapping keys and
sequence order preserved. -/
def specSubst : Value → PyDict → Value
  | .var n, vars => (dlookup vars n).getD Value.none
  | .strfmt t ns, vars =>
    .str (formatTemplate t (ns.map (fun n => (n, (dlookup vars n).getD Value.none))))
  | .list xs, vars => .list (specSubstList xs vars)
  | .dict es, vars => .dict (specSubstDict es vars)
  | v, _ => v

def specSubstList : List Value → PyDict → List Value
  | [], _ => []
  | x :: xs, vars => specSubst x vars :: specSubstList xs vars

def specSubstDict : List (String × Value) → PyDict → List (String × Value)
  | [], _ => []
  | (k, v) :: es, vars => (k, specSubst v vars) :: specSubstDict es vars

end

/-- The two resource-recording instruction variants. -/
def isRecordInstr : Instruction → Bool
  | .recordresourcevariable _ _ _ _ => true
  | .recordresourcevalue _ _ _ _ => true
  | _ => false

/-- The resource name of a recording instruction. -/
def recResourceName : Instruction → String
  | .recordresourcevariable _ rn _ _ => rn
  | .recordresourcevalue _ rn _ _ => rn
  | _ => ""

/-- The attribute name of a recording instruction. -/
def recAttrName : Instruction → String
  | .recordresourcevariable _ _ n _ => n
  | .recordresourcevalue _ _ n _ => n
  | _ => ""

/-- Whether the store lookup a RecordResourceVariable performs succeeds;
the other variants look nothing up. -/
def recordVarBound : Instruction → PyDict → Bool
  | .recordresourcevariable _ _ _ vn, vars => (dlookup vars vn).isSome
  | _, _ => true

/-- The payload dict a recording instruction builds against a store, as in
the two record handlers. -/
def payloadOf : Instruction → PyDict → PyDict
  | .recordresourcevariable rt rn n vn, vars =>
    buildDict [("name", .str rn), ("resource_type", .str rt),
      (n, (dlookup vars vn).getD Value.none)]
  | .recordresourcevalue rt rn n v, _ =>
    buildDict [("name", .str rn), ("resource_type", .str rt), (n, v)]
  | _, _ => []

/-- Deduplicate a name list keeping the first occurrence of each name, in
first-seen order. -/
def dedupFirstGo (seen : List String) : List String → List String
  | [] => []
  | n :: rest =>
    if n ∈ seen then dedupFirstGo seen rest
    else n :: dedupFirstGo (n :: seen) rest

/-- First-seen-order deduplication. -/
def dedupFirst (ns : List String) : List String := dedupFirstGo [] ns

/-- The string resource name a record is keyed by. -/
def nameStr (r : PyDict) : String :=
  match dlookup r "name" with
  | some (.str s) => s
  | _ => ""

/-- The last value written for an attribute across a payload sequence,
later payloads winning. -/
def lastAttr (pls : List PyDict) (k : String) : Option Value :=
  pls.foldl (fun acc p =>
    match dlookup p k with
    | some v => some v
    | Option.none => acc) Option.none

/-- Written from the words of the spec: the overflow-pool entries one
mapping field contributes, one per truthy collection-valued entry, keyed
by the synthesized token of the running counter. -/
def specSpill : List (String × Value) → Nat → PyDict
  | [], _ => []
  | (k, v) :: rest, n =>
    if v.truthy then
      if v.isCollection then (spillToken k n, v) :: specSpill rest (n + 1)
      else specSpill rest n
    else specSpill rest n

/-- Written from the words of the spec: the rows of one rendered mapping
field, collection values shown as their synthesized token, oversized byte
values as the fixed marker, everything else inline. -/
def specLines : List (String × Value) → Nat → List String
  | [], _ => []
  | (k, v) :: rest, n =>
    if v.truthy then
      if v.isCollection then
        formatDictRow k (.str (spillToken k n)) :: specLines rest (n + 1)
      else if v.isLongBytes then
        formatDictRow k (.str "<bytes>") :: specLines rest n
      else formatDictRow k v :: specLines rest n
    else specLines rest n

/-- A well-formed overflow pool: the entry at every position carries the
token synthesized at that position. -/
def poolOK (pool : PyDict) : Prop :=
  ∀ i, (h : i < pool.length) → ∃ k, (pool.get ⟨i, h⟩).1 = spillToken k i

/-- A record or payload carrying a string under the name key, as every
payload built by the record handlers does. -/
def strNamed (r : PyDict) : Prop := ∃ s, dlookup r "name" = some (Value.str s)

/-- A concrete external collaborator used to instantiate theorems. -/
def trivialExternals : Externals :=
  ⟨fun _ _ => .ok Value.none, fun _ _ => .ok Value.none⟩

/-- The decimal digit characters of a natural number, most significant
first: a recursion-friendly description of Nat.repr. -/
def natChars (n : Nat) : List Char :=
  if n < 10 then [Nat.digitChar n]
  else natChars (n / 10) ++ [Nat.digitChar (n % 10)]
  decreasing_by exact Nat.div_lt_self (by omega) (by omega)

/-! Theorems.  Helper lemmas come first, then one theorem per claim (with
its witness or counterexample). -/

theorem dlookup_dinsert_self (d : PyDict) (k : String) (v : Value) :
    dlookup (dinsert d k v) k = some v := by
  induction d with
  | nil => simp [dinsert, dlookup]
  | cons p rest ih =>
    obtain ⟨k2, v2⟩ := p
    by_cases h : k2 = k
    · simp [dinsert, h, dlookup]
    · simp [dinsert, h, dlookup, ih]

theorem dlookup_dinsert_ne (d : PyDict) (k k2 : String) (v : Value) (h : k ≠ k2) :
    dlookup (dinsert d k v) k2 = dlookup d k2 := by
  induction d with
  | nil => simp [dinsert, dlookup, h]
  | cons p rest ih =>
    obtain ⟨k3, v3⟩ := p
    by_cases h3 : k3 = k
    · subst h3
      simp [dinsert, dlookup, h]
    · simp [dinsert, h3, dlookup, ih]

/-- Structural induction over values, with pointwise hypotheses for the
elements of sequences and mappings. -/
theorem value_ind (P : Value → Prop)
    (hnone : P .none) (hbool : ∀ b, P (.bool b)) (hint : ∀ n, P (.int n))
    (hstr : ∀ s, P (.str s)) (hbytes : ∀ bs, P (.bytes bs))
    (hvar : ∀ n, P (.var n)) (hfmt : ∀ t ns, P (.strfmt t ns))
    (hph : P .placeholder)
    (hlist : ∀ xs, (∀ x ∈ xs, P x) → P (.list xs))
    (hdict : ∀ es, (∀ p ∈ es, P p.2) → P (.dict es)) :
    ∀ v, P v
  | .none => hnone
  | .bool b => hbool b
  | .int n => hint n
  | .str s => hstr s
  | .bytes bs => hbytes bs
  | .var n => hvar n
  | .strfmt t ns => hfmt t ns
  | .placeholder => hph
  | .list xs => hlist xs (fun x _hx =>
      value_ind P hnone hbool hint hstr hbytes hvar hfmt hph hlist hdict x)
  | .dict es => hdict es (fun p _hp =>
      value_ind P hnone hbool hint hstr hbytes hvar hfmt hph hlist hdict p.2)
termination_by v => sizeOf v
decreasing_by
  all_goals simp only [Value.list.sizeOf_spec, Value.dict.sizeOf_spec]
  · have h1 := List.sizeOf_lt_of_mem _hx
    omega
  · have h1 := List.sizeOf_lt_of_mem _hp
    have h2 : sizeOf p.2 < sizeOf p := by
      obtain ⟨a, b⟩ := p
      simp only [Prod.mk.sizeOf_spec]
      omega
    omega

/-- Claim C5: executing CopyVariable with a bound source succeeds, and
reading the destination afterwards yields exactly the value the source was
bound to at copy time; afterwards, overwriting either of the two variables
leaves the value read through the other one unchanged (the only mutation
the engine performs on the store is whole-value rebinding). -/
theorem copyvariable_copies (ext : Externals) (st : ExecState)
    (from_var to_var : String) (v : Value)
    (h : dlookup st.vars from_var = some v) :
    ∃ st2, execute_instruction ext st (.copyvariable from_var to_var) = .ok st2 ∧
      dlookup st2.vars to_var = some v ∧
      dlookup st2.vars from_var = some v ∧
      (from_var ≠ to_var →
        (∀ w, dlookup (dinsert st2.vars from_var w) to_var = some v) ∧
        (∀ w, dlookup (dinsert st2.vars to_var w) from_var = some v)) := by
  refine ⟨⟨dinsert st.vars to_var v, st.resource_values⟩, ?_, ?_, ?_, ?_⟩
  · simp [execute_instruction, _do_copyvariable, h]
  · exact dlookup_dinsert_self _ _ _
  · by_cases hft : to_var = from_var
    · subst hft
      exact dlookup_dinsert_self _ _ _
    · rw [dlookup_dinsert_ne _ _ _ _ hft]
      exact h
  · intro hne
    constructor
    · intro w
      rw [dlookup_dinsert_ne _ _ _ _ hne]
      exact dlookup_dinsert_self _ _ _
    · intro w
      rw [dlookup_dinsert_ne _ _ _ _ (fun hh => hne hh.symm)]
      rw [dlookup_dinsert_ne _ _ _ _ (fun hh => hne hh.symm)]
      exact h

/-- Witness for C5 at a concrete store. -/
theorem copyvariable_copies_witness :
    ∃ st2, execute_instruction trivialExternals ⟨[("src", Value.str "V")], []⟩
        (.copyvariable "src" "dst") = .ok st2 ∧
      dlookup st2.vars "dst" = some (Value.str "V") ∧
      dlookup st2.vars "src" = some (Value.str "V") ∧
      ("src" ≠ "dst" →
        (∀ w, dlookup (dinsert st2.vars "src" w) "dst" = some (Value.str "V")) ∧
        (∀ w, dlookup (dinsert st2.vars "dst" w) "src" = some (Value.str "V"))) :=
  copyvariable_copies trivialExternals ⟨[("src", Value.str "V")], []⟩ "src" "dst"
    (Value.str "V") (by rfl)

/-- Claim C6: a BuiltinFunction named parse_arn whose args resolve to a
non-empty sequence headed by a colon-delimited string of at least five
segments stores under the output variable the record of segments two,
three and four (zero-based) as service, region and account id; any other
function name always fails with the unknown-builtin error. -/
theorem parse_arn_decomposes (ext : Externals) (st : ExecState) (args : Value)
    (output_var : String) (s : String) (rest : List Value)
    (h : resolve_variables args st.vars = .ok (.list (.str s :: rest)))
    (h5 : 5 ≤ (pySplit s ':').length) :
    execute_instruction ext st (.builtinfunction "parse_arn" args output_var) =
      .ok ⟨dinsert st.vars output_var
        (.dict [("service", .str ((pySplit s ':').getD 2 "")),
                ("region", .str ((pySplit s ':').getD 3 "")),
                ("account_id", .str ((pySplit s ':').getD 4 ""))]),
        st.resource_values⟩ ∧
    (∀ f a o, f ≠ "parse_arn" →
      execute_instruction ext st (.builtinfunction f a o) =
        .error (.unknownBuiltin f)) := by
  constructor
  · simp [execute_instruction, _do_builtinfunction, h, h5]
  · intro f a o hf
    simp [execute_instruction, _do_builtinfunction, hf]

/-- Witness for C6 at the concrete resource identifier of the spec. -/
theorem parse_arn_decomposes_witness :
    execute_instruction trivialExternals ⟨[], []⟩ (.builtinfunction "parse_arn"
        (.list [.str "arn:aws:lambda:us-west-2:123456789012:function:foo"])
        "parsed") =
      .ok ⟨[("parsed", .dict [("service", .str "lambda"),
        ("region", .str "us-west-2"),
        ("account_id", .str "123456789012")])], []⟩ ∧
    (∀ f a o, f ≠ "parse_arn" →
      execute_instruction trivialExternals ⟨[], []⟩ (.builtinfunction f a o) =
        .error (.unknownBuiltin f)) := by
  have h := parse_arn_decomposes trivialExternals ⟨[], []⟩
    (.list [.str "arn:aws:lambda:us-west-2:123456789012:function:foo"]) "parsed"
    "arn:aws:lambda:us-west-2:123456789012:function:foo" [] (by rfl) (by decide)
  exact h

/-- Executing a plan prefix that succeeds continues with the rest of the
plan from the reached state. -/
theorem executeFrom_append_ok (ext : Externals) (pre rest : List Instruction)
    (s s2 : ExecState) (h : executeFrom ext pre s = .ok s2) :
    executeFrom ext (pre ++ rest) s = executeFrom ext rest s2 := by
  induction pre generalizing s with
  | nil =>
    simp only [executeFrom] at h
    cases h
    rfl
  | cons i tl ih =>
    simp only [List.cons_append, executeFrom] at h ⊢
    cases hi : execute_instruction ext s i with
    | ok s3 =>
      simp only [hi] at h ⊢
      exact ih s3 h
    | error e =>
      rw [hi] at h
      exact absurd h (by simp)

/-- Claim C4 (amended): in the real executor any instruction of an
unrecognized variant is fatal: after a successful prefix, execution stops
with the RuntimeError naming that variant, whatever instructions follow;
the explain renderer however sends every instruction, of any variant,
through its default handler and renders it, never aborting (at least one
write per instruction beyond the two header writes). -/
theorem unknown_variant_fatal_in_executor_only (ext : Externals)
    (pre post : List Instruction) (c : String) (fs : List (String × Value))
    (s s2 : ExecState) (h : executeFrom ext pre s = .ok s2) :
    executeFrom ext (pre ++ .other c fs :: post) s =
      .error (.unknownInstruction c) ∧
    (∀ plan : List Instruction,
      2 + plan.length ≤ (DisplayOnlyExecutor.execute plan).length) := by
  constructor
  · rw [executeFrom_append_ok ext pre _ s s2 h]
    simp only [executeFrom, execute_instruction]
  · intro plan
    have hgo : ∀ (label : String) (fl : List (String × Value)) (pool : PyDict),
        1 ≤ (_default_handler_go label fl pool).1.length := by
      intro label fl
      induction fl generalizing label with
      | nil => intro pool; simp [_default_handler_go]
      | cons p tl ih =>
        intro pool
        obtain ⟨k, v⟩ := p
        simp only [_default_handler_go, List.length_cons]
        omega
    have hall : ∀ (is : List Instruction) (pool : PyDict),
        is.length ≤ (renderAll is pool).1.length := by
      intro is
      induction is with
      | nil => intro pool; simp [renderAll]
      | cons i tl ih =>
        intro pool
        simp only [renderAll, List.length_cons, List.length_append]
        have h1 : 1 ≤ (_default_handler_render i pool).1.length :=
          hgo (_upper_snake_case i.className) i.fields pool
        have h2 := ih (_default_handler_render i pool).2
        omega
    simp only [DisplayOnlyExecutor.execute, List.length_cons, List.length_append]
    have := hall plan []
    omega

/-- Witness for C4 (amended) at a concrete plan. -/
theorem unknown_variant_fatal_in_executor_only_witness :
    executeFrom trivialExternals ([.storevalue "x" (.str "1")] ++
        .other "FrobnicateResource" [] :: [.storevalue "y" (.str "2")]) ⟨[], []⟩ =
      .error (.unknownInstruction "FrobnicateResource") ∧
    (∀ plan : List Instruction,
      2 + plan.length ≤ (DisplayOnlyExecutor.execute plan).length) :=
  unknown_variant_fatal_in_executor_only trivialExternals
    [.storevalue "x" (.str "1")] [.storevalue "y" (.str "2")]
    "FrobnicateResource" [] ⟨[], []⟩ ⟨[("x", Value.str "1")], []⟩ (by rfl)

/-- Counterexample to C4 as stated: the explain renderer does not abort on
an instruction of an unrecognized variant; it renders it and goes on to
render the instructions after it, as the growth of the write list shows
(the renderer is a total function producing no error at all). -/
theorem unknown_variant_renderer_counterexample :
    (DisplayOnlyExecutor.execute [.other "FrobnicateResource" [("x", .str "1")],
        .storevalue "a" (.str "b")]).length = 7 ∧
    (DisplayOnlyExecutor.execute
        [.other "FrobnicateResource" [("x", .str "1")]]).length = 4 := by
  exact ⟨rfl, rfl⟩

/-- The lookups of the StringFormat branch fail with the first unbound
name of the referenced list. -/
theorem lookupAll_first_missing (ns : List String) (vars : PyDict) (m : String)
    (h : ns.find? (fun n => (dlookup vars n).isNone) = some m) :
    lookupAll ns vars = .error (.undefinedVariable m) := by
  induction ns with
  | nil => simp [List.find?] at h
  | cons n tl ih =>
    rw [List.find?] at h
    cases hn : dlookup vars n with
    | none =>
      rw [hn] at h
      simp at h
      subst h
      simp [lookupAll, hn]
    | some v =>
      rw [hn] at h
      simp at h
      simp [lookupAll, hn, ih h]

/-- The lookups of the StringFormat branch succeed when every referenced
name is bound. -/
theorem lookupAll_all_bound (ns : List String) (vars : PyDict)
    (h : ∀ n ∈ ns, (dlookup vars n).isSome) :
    ∃ b, lookupAll ns vars = .ok b := by
  induction ns with
  | nil => exact ⟨[], rfl⟩
  | cons n tl ih =>
    have hn := h n (by simp)
    cases hv : dlookup vars n with
    | none => rw [hv] at hn; simp at hn
    | some v =>
      obtain ⟨b, hb⟩ := ih (fun x hx => h x (by simp [hx]))
      exact ⟨(n, v) :: b, by simp [lookupAll, hv, hb]⟩

/-- Claim C8 (amended): a VariableRef of an unbound name fails with the
undefined-variable error naming it, and resolves to the bound value
otherwise; a TemplateString fails with the undefined-variable error naming
the first unbound name of its variable list, and yields a string when all
listed names are bound; a CopyVariable of an unbound source fails with the
undefined-variable error naming it, and copies the bound value otherwise. -/
theorem undefined_variable_taxonomy :
    (∀ (vars : PyDict) (n : String), dlookup vars n = Option.none →
      resolve_variables (.var n) vars = .error (.undefinedVariable n)) ∧
    (∀ (vars : PyDict) (n : String) (v : Value), dlookup vars n = some v →
      resolve_variables (.var n) vars = .ok v) ∧
    (∀ (vars : PyDict) (t : String) (ns : List String) (m : String),
      ns.find? (fun n => (dlookup vars n).isNone) = some m →
      resolve_variables (.strfmt t ns) vars = .error (.undefinedVariable m)) ∧
    (∀ (vars : PyDict) (t : String) (ns : List String),
      (∀ n ∈ ns, (dlookup vars n).isSome) →
      ∃ s, resolve_variables (.strfmt t ns) vars = .ok (.str s)) ∧
    (∀ (ext : Externals) (st : ExecState) (f t : String),
      dlookup st.vars f = Option.none →
      execute_instruction ext st (.copyvariable f t) =
        .error (.resolution (.undefinedVariable f))) ∧
    (∀ (ext : Externals) (st : ExecState) (f t : String) (v : Value),
      dlookup st.vars f = some v →
      execute_instruction ext st (.copyvariable f t) =
        .ok ⟨dinsert st.vars t v, st.resource_values⟩) := by
  refine ⟨?_, ?_, ?_, ?_, ?_, ?_⟩
  · intro vars n h
    simp [resolve_variables, h]
  · intro vars n v h
    simp [resolve_variables, h]
  · intro vars t ns m h
    simp [resolve_variables, lookupAll_first_missing ns vars m h]
  · intro vars t ns h
    obtain ⟨b, hb⟩ := lookupAll_all_bound ns vars h
    exact ⟨formatTemplate t b, by simp [resolve_variables, hb]⟩
  · intro ext st f t h
    simp [execute_instruction, _do_copyvariable, h]
  · intro ext st f t v h
    simp [execute_instruction, _do_copyvariable, h]

/-- Witness for C8 (amended), each part applied at a concrete input. -/
theorem undefined_variable_taxonomy_witness :
    resolve_variables (.var "missing") [] = .error (.undefinedVariable "missing") ∧
    resolve_variables (.var "x") [("x", .str "1")] = .ok (.str "1") ∧
    resolve_variables (.strfmt "t" ["gone"]) [] =
      .error (.undefinedVariable "gone") ∧
    (∃ s, resolve_variables (.strfmt "\x7bx\x7d" ["x"]) [("x", .str "1")] =
      .ok (.str s)) ∧
    execute_instruction trivialExternals ⟨[], []⟩ (.copyvariable "a" "b") =
      .error (.resolution (.undefinedVariable "a")) ∧
    execute_instruction trivialExternals ⟨[("a", Value.int 7)], []⟩
        (.copyvariable "a" "b") =
      .ok ⟨dinsert [("a", Value.int 7)] "b" (Value.int 7), []⟩ :=
  ⟨undefined_variable_taxonomy.1 [] "missing" rfl,
   undefined_variable_taxonomy.2.1 [("x", .str "1")] "x" (.str "1") rfl,
   undefined_variable_taxonomy.2.2.1 [] "t" ["gone"] "gone" rfl,
   undefined_variable_taxonomy.2.2.2.1 [("x", .str "1")] "\x7bx\x7d" ["x"]
     (by decide),
   undefined_variable_taxonomy.2.2.2.2.1 trivialExternals ⟨[], []⟩ "a" "b" rfl,
   undefined_variable_taxonomy.2.2.2.2.2 trivialExternals
     ⟨[("a", Value.int 7)], []⟩ "a" "b" (Value.int 7) rfl⟩

/-- Counterexample to C8 as stated: for the never-written name b, resolving
a TemplateString whose variable list contains b does fail, but with the
undefined-variable error naming a, the first unbound name of the list, not
b. -/
theorem undefined_variable_first_name_counterexample :
    dlookup [] "b" = Option.none ∧
    resolve_variables (.strfmt "t" ["a", "b"]) [] =
      .error (.undefinedVariable "a") ∧
    (resolve_variables (.strfmt "t" ["a", "b"]) [] ≠
      .error (.undefinedVariable "b")) := by
  refine ⟨rfl, rfl, ?_⟩
  intro h
  rw [show resolve_variables (.strfmt "t" ["a", "b"]) [] =
    .error (.undefinedVariable "a") from rfl] at h
  simp at h

theorem plainValueList_iff (xs : List Value) :
    plainValueList xs = true ↔ ∀ x ∈ xs, plainValue x = true := by
  induction xs with
  | nil => simp [plainValueList]
  | cons x tl ih => simp [plainValueList, ih]

theorem plainValueDict_iff (es : List (String × Value)) :
    plainValueDict es = true ↔ ∀ p ∈ es, plainValue p.2 = true := by
  induction es with
  | nil => simp [plainValueDict]
  | cons p tl ih =>
    obtain ⟨k, v⟩ := p
    simp [plainValueDict, ih]

theorem resolvableList_iff (xs : List Value) (vars : PyDict) :
    resolvableList xs vars = true ↔ ∀ x ∈ xs, resolvable x vars = true := by
  induction xs with
  | nil => simp [resolvableList]
  | cons x tl ih => simp [resolvableList, ih]

theorem resolvableDict_iff (es : List (String × Value)) (vars : PyDict) :
    resolvableDict es vars = true ↔ ∀ p ∈ es, resolvable p.2 vars = true := by
  induction es with
  | nil => simp [resolvableDict]
  | cons p tl ih =>
    obtain ⟨k, v⟩ := p
    simp [resolvableDict, ih]

theorem containsPlaceholderList_iff (xs : List Value) :
    containsPlaceholderList xs = true ↔ ∃ x ∈ xs, containsPlaceholder x = true := by
  induction xs with
  | nil => simp [containsPlaceholderList]
  | cons x tl ih => simp [containsPlaceholderList, ih]

theorem containsPlaceholderDict_iff (es : List (String × Value)) :
    containsPlaceholderDict es = true ↔
      ∃ p ∈ es, containsPlaceholder p.2 = true := by
  induction es with
  | nil => simp [containsPlaceholderDict]
  | cons p tl ih =>
    obtain ⟨k, v⟩ := p
    simp [containsPlaceholderDict, ih]

theorem attachKey_ok (k : String) (x : Except ResolveError Value) (rv : Value)
    (h : attachKey k x = .ok rv) : x = .ok rv := by
  cases x with
  | ok v => simpa [attachKey] using h
  | error e => cases e <;> simp [attachKey] at h

theorem attachKey_of_error (k : String) (e : ResolveError) :
    ∃ e2, attachKey k (.error e) = .error e2 := by
  cases e <;> exact ⟨_, rfl⟩

/-- lookupAll computes exactly the per-name lookup map when every name is
bound. -/
theorem lookupAll_eq_map (ns : List String) (vars : PyDict)
    (h : ∀ n ∈ ns, (dlookup vars n).isSome) :
    lookupAll ns vars =
      .ok (ns.map (fun n => (n, (dlookup vars n).getD Value.none))) := by
  induction ns with
  | nil => rfl
  | cons n tl ih =>
    have hn := h n (by simp)
    cases hv : dlookup vars n with
    | none => rw [hv] at hn; simp at hn
    | some v =>
      rw [List.map_cons]
      simp only [lookupAll, hv, ih (fun x hx => h x (by simp [hx])), hv,
        Option.getD_some]

/-- Claim C3: a value with no placeholder whose variable and template
references are all bound resolves successfully to the structural
substitution written from the words of the spec: a structurally identical
container (keys and order preserved) in which every VariableRef is
replaced by the current store value of its name, templates are
substituted, and every other scalar leaf is unchanged. -/
theorem resolve_is_structural_substitution (v : Value) (vars : PyDict)
    (h : resolvable v vars = true) :
    resolve_variables v vars = .ok (specSubst v vars) ∧
    (∀ es, (specSubstDict es vars).map Prod.fst = es.map Prod.fst) ∧
    (∀ xs, (specSubstList xs vars).length = xs.length) := by
  refine ⟨?_, ?_, ?_⟩
  · induction v using value_ind with
    | hnone => rfl
    | hbool b => rfl
    | hint n => rfl
    | hstr s => rfl
    | hbytes bs => rfl
    | hvar n =>
      simp only [resolvable] at h
      cases hv : dlookup vars n with
      | none => rw [hv] at h; simp at h
      | some w => simp [resolve_variables, specSubst, hv]
    | hfmt t ns =>
      simp only [resolvable] at h
      rw [List.all_eq_true] at h
      simp [resolve_variables, specSubst,
        lookupAll_eq_map ns vars (fun n hn => by simpa using h n hn)]
    | hph => simp [resolvable] at h
    | hlist xs ih =>
      simp only [resolvable] at h
      rw [resolvableList_iff] at h
      have hl : resolveList xs vars = .ok (specSubstList xs vars) := by
        induction xs with
        | nil => rfl
        | cons x tl ihl =>
          have hx := ih x (by simp) (h x (by simp))
          have htl := ihl (fun y hy => ih y (by simp [hy]))
            (fun y hy => h y (by simp [hy]))
          simp [resolveList, hx, htl, specSubstList]
      simp [resolve_variables, hl, specSubst]
    | hdict es ih =>
      simp only [resolvable] at h
      rw [resolvableDict_iff] at h
      have hl : resolveDict es vars = .ok (specSubstDict es vars) := by
        induction es with
        | nil => rfl
        | cons p tl ihl =>
          obtain ⟨k, w⟩ := p
          have hx := ih (k, w) (by simp) (h (k, w) (by simp))
          have htl := ihl (fun y hy => ih y (by simp [hy]))
            (fun y hy => h y (by simp [hy]))
          simp only at hx
          simp [resolveDict, hx, attachKey, htl, specSubstDict]
      simp [resolve_variables, hl, specSubst]
  · intro es
    induction es with
    | nil => rfl
    | cons p tl ih =>
      obtain ⟨k, w⟩ := p
      simp [specSubstDict, ih]
  · intro xs
    induction xs with
    | nil => rfl
    | cons x tl ih =>
      simp [specSubstList, ih]

/-- Witness for C3 at a concrete nested value and store. -/
theorem resolve_is_structural_substitution_witness :
    resolve_variables
        (.dict [("a", .var "x"), ("b", .list [.var "y", .int 3]),
          ("c", .str "lit")])
        [("x", .str "X"), ("y", .str "Y")] =
      .ok (specSubst
        (.dict [("a", .var "x"), ("b", .list [.var "y", .int 3]),
          ("c", .str "lit")])
        [("x", .str "X"), ("y", .str "Y")]) ∧
    (∀ es, (specSubstDict es [("x", .str "X"), ("y", .str "Y")]).map Prod.fst =
      es.map Prod.fst) ∧
    (∀ xs, (specSubstList xs [("x", .str "X"), ("y", .str "Y")]).length =
      xs.length) :=
  resolve_is_structural_substitution
    (.dict [("a", .var "x"), ("b", .list [.var "y", .int 3]), ("c", .str "lit")])
    [("x", .str "X"), ("y", .str "Y")] (by rfl)

/-- A value free of the special leaf forms resolves to itself against any
store. -/
theorem plain_resolves_to_self (vars : PyDict) (v : Value)
    (h : plainValue v = true) : resolve_variables v vars = .ok v := by
  induction v using value_ind with
  | hnone => rfl
  | hbool b => rfl
  | hint n => rfl
  | hstr s => rfl
  | hbytes bs => rfl
  | hvar n => simp [plainValue] at h
  | hfmt t ns => simp [plainValue] at h
  | hph => simp [plainValue] at h
  | hlist xs ih =>
    simp only [plainValue] at h
    rw [plainValueList_iff] at h
    have hl : resolveList xs vars = .ok xs := by
      induction xs with
      | nil => rfl
      | cons x tl ihl =>
        simp [resolveList, ih x (by simp) (h x (by simp)),
          ihl (fun y hy => ih y (by simp [hy])) (fun y hy => h y (by simp [hy]))]
    simp [resolve_variables, hl]
  | hdict es ih =>
    simp only [plainValue] at h
    rw [plainValueDict_iff] at h
    have hl : resolveDict es vars = .ok es := by
      induction es with
      | nil => rfl
      | cons p tl ihl =>
        obtain ⟨k, w⟩ := p
        have hx := ih (k, w) (by simp) (h (k, w) (by simp))
        simp only at hx
        simp [resolveDict, hx, attachKey,
          ihl (fun y hy => ih y (by simp [hy])) (fun y hy => h y (by simp [hy]))]
    simp [resolve_variables, hl]

/-- A successful lookup in a store of plain values yields a plain value. -/
theorem dlookup_plainStore (vars : PyDict) (n : String) (v : Value)
    (hs : plainStore vars = true) (h : dlookup vars n = some v) :
    plainValue v = true := by
  induction vars with
  | nil => simp [dlookup] at h
  | cons p tl ih =>
    obtain ⟨k, w⟩ := p
    simp only [plainStore, List.all_cons, Bool.and_eq_true] at hs
    rw [dlookup] at h
    by_cases hk : k = n
    · rw [if_pos hk] at h
      cases h
      exact hs.1
    · rw [if_neg hk] at h
      exact ih (by simpa [plainStore] using hs.2) h

/-- Against a store of plain values, every successful resolution produces
a plain value. -/
theorem resolve_result_plain (vars : PyDict) (hs : plainStore vars = true)
    (v : Value) : ∀ r, resolve_variables v vars = .ok r → plainValue r = true := by
  induction v using value_ind with
  | hnone => intro r h; cases h; rfl
  | hbool b => intro r h; cases h; rfl
  | hint n => intro r h; cases h; rfl
  | hstr s => intro r h; cases h; rfl
  | hbytes bs => intro r h; cases h; rfl
  | hvar n =>
    intro r h
    simp only [resolve_variables] at h
    cases hv : dlookup vars n with
    | none => rw [hv] at h; simp at h
    | some w =>
      rw [hv] at h
      simp only at h
      cases h
      exact dlookup_plainStore vars n r hs hv
  | hfmt t ns =>
    intro r h
    simp only [resolve_variables] at h
    cases hb : lookupAll ns vars with
    | ok b => rw [hb] at h; simp only at h; cases h; rfl
    | error e => rw [hb] at h; simp at h
  | hph => intro r h; simp [resolve_variables] at h
  | hlist xs ih =>
    intro r h
    simp only [resolve_variables] at h
    have key : ∀ (ys : List Value),
        (∀ x ∈ ys, ∀ r2, resolve_variables x vars = .ok r2 → plainValue r2 = true) →
        ∀ rs, resolveList ys vars = .ok rs → ∀ y ∈ rs, plainValue y = true := by
      intro ys
      induction ys with
      | nil =>
        intro _ rs hrs
        simp only [resolveList] at hrs
        cases hrs
        simp
      | cons x tl ihl =>
        intro hpt rs hrs
        simp only [resolveList] at hrs
        cases hx : resolve_variables x vars with
        | error e => rw [hx] at hrs; simp at hrs
        | ok rv =>
          rw [hx] at hrs
          cases htl : resolveList tl vars with
          | error e => rw [htl] at hrs; simp at hrs
          | ok rtl =>
            rw [htl] at hrs
            simp only at hrs
            cases hrs
            intro y hy
            rcases List.mem_cons.mp hy with hh | hy2
            · subst hh
              exact hpt x (by simp) y hx
            · exact ihl (fun z hz r2 hr2 => hpt z (by simp [hz]) r2 hr2)
                rtl htl y hy2
    cases hl : resolveList xs vars with
    | error e => rw [hl] at h; simp at h
    | ok rs =>
      rw [hl] at h
      simp only at h
      cases h
      simp only [plainValue]
      rw [plainValueList_iff]
      exact key xs (fun x hx => ih x hx) rs hl
  | hdict es ih =>
    intro r h
    simp only [resolve_variables] at h
    have key : ∀ (ys : List (String × Value)),
        (∀ p ∈ ys, ∀ r2, resolve_variables p.2 vars = .ok r2 → plainValue r2 = true) →
        ∀ rs, resolveDict ys vars = .ok rs → ∀ y ∈ rs, plainValue y.2 = true := by
      intro ys
      induction ys with
      | nil =>
        intro _ rs hrs
        simp only [resolveDict] at hrs
        cases hrs
        simp
      | cons p tl ihl =>
        obtain ⟨k, w⟩ := p
        intro hpt rs hrs
        simp only [resolveDict] at hrs
        cases hx : attachKey k (resolve_variables w vars) with
        | error e => rw [hx] at hrs; simp at hrs
        | ok rv =>
          rw [hx] at hrs
          cases htl : resolveDict tl vars with
          | error e => rw [htl] at hrs; simp at hrs
          | ok rtl =>
            rw [htl] at hrs
            simp only at hrs
            cases hrs
            intro y hy
            rcases List.mem_cons.mp hy with hh | hy2
            · subst hh
              exact hpt (k, w) (by simp) rv (attachKey_ok k _ rv hx)
            · exact ihl (fun z hz r2 hr2 => hpt z (by simp [hz]) r2 hr2)
                rtl htl y hy2
    cases hl : resolveDict es vars with
    | error e => rw [hl] at h; simp at h
    | ok rs =>
      rw [hl] at h
      simp only at h
      cases h
      simp only [plainValue]
      rw [plainValueDict_iff]
      exact key es (fun p hp => ih p hp) rs hl

/-- Claim C7 (amended): against a store whose bound values are free of the
special leaf forms, resolution is idempotent: a successful resolution
re-resolves to itself against the unchanged store. -/
theorem resolve_idempotent_on_plain_store (v r : Value) (vars : PyDict)
    (hs : plainStore vars = true) (h : resolve_variables v vars = .ok r) :
    resolve_variables r vars = .ok r :=
  plain_resolves_to_self vars r (resolve_result_plain vars hs v r h)

/-- Witness for C7 (amended) at a concrete nested value and plain store. -/
theorem resolve_idempotent_on_plain_store_witness :
    resolve_variables
        (.dict [("a", .var "x"), ("b", .list [.strfmt "v=\x7by\x7d" ["y"]])])
        [("x", .dict [("k", .str "K")]), ("y", .int 2)] =
      .ok (.dict [("a", .dict [("k", .str "K")]), ("b", .list [.str "v=2"])]) ∧
    resolve_variables
        (.dict [("a", .dict [("k", .str "K")]), ("b", .list [.str "v=2"])])
        [("x", .dict [("k", .str "K")]), ("y", .int 2)] =
      .ok (.dict [("a", .dict [("k", .str "K")]), ("b", .list [.str "v=2"])]) :=
  ⟨by rfl,
   resolve_idempotent_on_plain_store
     (.dict [("a", .var "x"), ("b", .list [.strfmt "v=\x7by\x7d" ["y"]])])
     (.dict [("a", .dict [("k", .str "K")]), ("b", .list [.str "v=2"])])
     [("x", .dict [("k", .str "K")]), ("y", .int 2)] (by rfl) (by rfl)⟩

/-- Counterexample to C7 as stated: when the store itself binds a value
containing a VariableRef, resolution is not idempotent: the first pass
returns the stored reference and the second pass fails on it. -/
theorem resolve_not_idempotent_counterexample :
    resolve_variables (.var "x") [("x", .var "y")] = .ok (.var "y") ∧
    resolve_variables (.var "y") [("x", .var "y")] =
      .error (.undefinedVariable "y") :=
  ⟨rfl, rfl⟩

/-- A value containing the placeholder sentinel anywhere never resolves. -/
theorem contains_placeholder_fails (vars : PyDict) (v : Value)
    (h : containsPlaceholder v = true) :
    ∃ e, resolve_variables v vars = .error e := by
  induction v using value_ind with
  | hnone => simp [containsPlaceholder] at h
  | hbool b => simp [containsPlaceholder] at h
  | hint n => simp [containsPlaceholder] at h
  | hstr s => simp [containsPlaceholder] at h
  | hbytes bs => simp [containsPlaceholder] at h
  | hvar n => simp [containsPlaceholder] at h
  | hfmt t ns => simp [containsPlaceholder] at h
  | hph => exact ⟨_, rfl⟩
  | hlist xs ih =>
    simp only [containsPlaceholder] at h
    rw [containsPlaceholderList_iff] at h
    have key : ∀ ys : List Value,
        (∀ x ∈ ys, containsPlaceholder x = true →
          ∃ e, resolve_variables x vars = .error e) →
        (∃ x ∈ ys, containsPlaceholder x = true) →
        ∃ e, resolveList ys vars = .error e := by
      intro ys
      induction ys with
      | nil => intro _ hex; simp at hex
      | cons x tl ihl =>
        intro hpt hex
        cases hx : resolve_variables x vars with
        | error e => exact ⟨e, by simp [resolveList, hx]⟩
        | ok rv =>
          rcases hex with ⟨y, hy, hcy⟩
          rcases List.mem_cons.mp hy with hh | hy2
          · rw [hh] at hcy
            obtain ⟨e, he⟩ := hpt x (by simp) hcy
            rw [hx] at he
            simp at he
          · obtain ⟨e, he⟩ := ihl
              (fun z hz hcz => hpt z (by simp [hz]) hcz) ⟨y, hy2, hcy⟩
            exact ⟨e, by simp [resolveList, hx, he]⟩
    obtain ⟨e, he⟩ := key xs (fun x hx => ih x hx) h
    exact ⟨e, by simp [resolve_variables, he]⟩
  | hdict es ih =>
    simp only [containsPlaceholder] at h
    rw [containsPlaceholderDict_iff] at h
    have key : ∀ ys : List (String × Value),
        (∀ p ∈ ys, containsPlaceholder p.2 = true →
          ∃ e, resolve_variables p.2 vars = .error e) →
        (∃ p ∈ ys, containsPlaceholder p.2 = true) →
        ∃ e, resolveDict ys vars = .error e := by
      intro ys
      induction ys with
      | nil => intro _ hex; simp at hex
      | cons p tl ihl =>
        obtain ⟨k, w⟩ := p
        intro hpt hex
        cases hx : resolve_variables w vars with
        | error e =>
          obtain ⟨e2, he2⟩ := attachKey_of_error k e
          exact ⟨e2, by simp [resolveDict, hx, he2]⟩
        | ok rv =>
          rcases hex with ⟨y, hy, hcy⟩
          rcases List.mem_cons.mp hy with hh | hy2
          · rw [hh] at hcy
            obtain ⟨e, he⟩ := hpt (k, w) (by simp) hcy
            simp only at he
            rw [hx] at he
            simp at he
          · obtain ⟨e, he⟩ := ihl
              (fun z hz hcz => hpt z (by simp [hz]) hcz) ⟨y, hy2, hcy⟩
            exact ⟨e, by simp [resolveDict, hx, attachKey, he]⟩
    obtain ⟨e, he⟩ := key es (fun p hp => ih p hp) h
    exact ⟨e, by simp [resolve_variables, he]⟩

/-- An unresolved-value failure surfacing from a mapping carries as key a
top-level key of that mapping whose own resolution failed on the same
placeholder value with the same method field. -/
theorem resolveDict_unresolved (es : List (String × Value)) (vars : PyDict)
    (k : String) (pv : Value) (m : String)
    (h : resolveDict es vars = .error (.unresolved k pv m)) :
    ∃ w k0, (k, w) ∈ es ∧
      resolve_variables w vars = .error (.unresolved k0 pv m) := by
  induction es with
  | nil => simp [resolveDict] at h
  | cons p tl ih =>
    obtain ⟨k1, v1⟩ := p
    simp only [resolveDict] at h
    cases hr : attachKey k1 (resolve_variables v1 vars) with
    | ok rv =>
      rw [hr] at h
      cases hd : resolveDict tl vars with
      | ok rs => rw [hd] at h; simp at h
      | error e =>
        rw [hd] at h
        simp only [Except.error.injEq] at h
        subst h
        obtain ⟨w, k0, hw, hres⟩ := ih hd
        exact ⟨w, k0, by simp [hw], hres⟩
    | error e =>
      rw [hr] at h
      simp only [Except.error.injEq] at h
      subst h
      cases hv : resolve_variables v1 vars with
      | ok rv => rw [hv] at hr; simp [attachKey] at hr
      | error e1 =>
        rw [hv] at hr
        cases e1 with
        | undefinedVariable n => simp [attachKey] at hr
        | unresolved k0 pv0 m0 =>
          simp only [attachKey, Except.error.injEq,
            ResolveError.unresolved.injEq] at hr
          obtain ⟨hk, hpv, hm⟩ := hr
          subst hk
          subst hpv
          subst hm
          exact ⟨v1, k0, by simp, hv⟩

/-- Claim C2 (amended): resolving a value that contains the placeholder
sentinel anywhere always fails; when the failure is an unresolved-value
error surfacing from a mapping, its key names the top-level entry of that
mapping whose resolution failed on that placeholder (whatever the nesting
depth below it); and when APICall params resolution fails with an
unresolved-value error, the surfaced method field is the method name of
that call. -/
theorem unresolved_placeholder_reporting :
    (∀ (v : Value) (vars : PyDict), containsPlaceholder v = true →
      ∃ e, resolve_variables v vars = .error e) ∧
    (∀ (es : List (String × Value)) (vars : PyDict) (k : String) (pv : Value)
        (m : String),
      resolve_variables (.dict es) vars = .error (.unresolved k pv m) →
      ∃ w k0, (k, w) ∈ es ∧
        resolve_variables w vars = .error (.unresolved k0 pv m)) ∧
    (∀ (method : String) (params vars : PyDict) (k : String) (pv : Value)
        (mm : String),
      _resolve_variables method params vars = .error (.unresolved k pv mm) →
      mm = method) := by
  refine ⟨fun v vars h => contains_placeholder_fails vars v h, ?_, ?_⟩
  · intro es vars k pv m h
    simp only [resolve_variables] at h
    cases hd : resolveDict es vars with
    | ok rs => rw [hd] at h; simp at h
    | error e =>
      rw [hd] at h
      simp only [Except.error.injEq] at h
      subst h
      exact resolveDict_unresolved es vars k pv m hd
  · intro method params vars k pv mm h
    simp only [_resolve_variables] at h
    cases hd : resolveDict params vars with
    | ok rs => rw [hd] at h; simp at h
    | error e =>
      rw [hd] at h
      cases e with
      | undefinedVariable n => simp at h
      | unresolved k0 pv0 m0 =>
        simp only [Except.error.injEq, ResolveError.unresolved.injEq] at h
        exact h.2.2.symm

/-- Witness for C2 (amended), each part applied at a concrete input. -/
theorem unresolved_placeholder_reporting_witness :
    (∃ e, resolve_variables (.dict [("a", .placeholder)]) [] = .error e) ∧
    (∃ w k0, ("top", w) ∈ [("top", Value.dict [("x", Value.placeholder)])] ∧
      resolve_variables w [] =
        .error (.unresolved k0 .placeholder "")) ∧
    ("create_function" : String) = "create_function" :=
  ⟨unresolved_placeholder_reporting.1 (.dict [("a", .placeholder)]) [] (by rfl),
   unresolved_placeholder_reporting.2.1
     [("top", Value.dict [("x", Value.placeholder)])] [] "top" .placeholder ""
     (by rfl),
   unresolved_placeholder_reporting.2.2 "create_function"
     [("p", Value.placeholder)] [] "p" .placeholder "create_function" (by rfl)⟩

/-- Counterexample to C2 as stated: a value containing a placeholder nested
inside mappings whose resolution fails, but not with an unresolved-value
error: an unbound VariableRef earlier in the same mapping fails first, so
the surfaced error is the undefined-variable error. -/
theorem unresolved_placeholder_counterexample :
    resolve_variables
        (.dict [("a", .dict [("x", .var "m"), ("y", .placeholder)])]) [] =
      .error (.undefinedVariable "m") ∧
    (∀ (k : String) (pv : Value) (mm : String),
      resolve_variables
          (.dict [("a", .dict [("x", .var "m"), ("y", .placeholder)])]) [] ≠
        .error (.unresolved k pv mm)) := by
  refine ⟨rfl, ?_⟩
  intro k pv mm h
  rw [show resolve_variables
      (.dict [("a", .dict [("x", .var "m"), ("y", .placeholder)])]) [] =
    .error (.undefinedVariable "m") from rfl] at h
  simp at h

/-- Claim C10: rendering a mapping field skips every falsy-valued entry
entirely: the rendered sub-block and the overflow pool both come out
exactly as if the falsy entries (None, False, zero, empty string, empty
collection) were absent, so a falsy collection is never spilled either. -/
theorem falsy_entries_omitted (d : PyDict) (pool : PyDict) :
    _format_dict d pool = _format_dict (d.filter (fun p => p.2.truthy)) pool := by
  suffices h : ∀ pool2, _format_dict_go d pool2 =
      _format_dict_go (d.filter (fun p => p.2.truthy)) pool2 by
    simp only [_format_dict, h pool]
  induction d with
  | nil => intro pool2; rfl
  | cons p tl ih =>
    intro pool2
    obtain ⟨k, v⟩ := p
    by_cases hv : v.truthy = true
    · simp only [List.filter_cons, hv, if_pos, _format_dict_go, ih]
    · simp only [Bool.not_eq_true] at hv
      simp only [List.filter_cons, hv, Bool.false_eq_true, if_false,
        _format_dict_go, ih]

theorem natChars_lt (n : Nat) (h : n < 10) : natChars n = [Nat.digitChar n] := by
  rw [natChars]
  simp [h]

theorem natChars_ge (n : Nat) (h : ¬ n < 10) :
    natChars n = natChars (n / 10) ++ [Nat.digitChar (n % 10)] := by
  rw [natChars]
  simp [h]

theorem digitChar_isDigit : ∀ a < 10, (Nat.digitChar a).isDigit = true := by
  decide

theorem digitChar_inj :
    ∀ a < 10, ∀ b < 10, Nat.digitChar a = Nat.digitChar b → a = b := by
  decide

theorem natChars_ne_nil (n : Nat) : natChars n ≠ [] := by
  by_cases h : n < 10
  · rw [natChars_lt n h]
    simp
  · rw [natChars_ge n h]
    simp

theorem natChars_digits (n : Nat) : ∀ c ∈ natChars n, c.isDigit = true := by
  induction n using Nat.strong_induction_on with
  | _ n ih =>
    by_cases h : n < 10
    · rw [natChars_lt n h]
      intro c hc
      simp at hc
      subst hc
      exact digitChar_isDigit n h
    · rw [natChars_ge n h]
      intro c hc
      rcases List.mem_append.mp hc with h1 | h2
      · exact ih (n / 10) (Nat.div_lt_self (by omega) (by omega)) c h1
      · simp at h2
        subst h2
        exact digitChar_isDigit _ (Nat.mod_lt n (by omega))

theorem natChars_inj (n : Nat) :
    ∀ m, natChars n = natChars m → n = m := by
  induction n using Nat.strong_induction_on with
  | _ n ih =>
    intro m h
    by_cases hn : n < 10 <;> by_cases hm : m < 10
    · rw [natChars_lt n hn, natChars_lt m hm] at h
      simp at h
      exact digitChar_inj n hn m hm h
    · rw [natChars_lt n hn, natChars_ge m hm] at h
      have hlen := congrArg List.length h
      simp only [List.length_cons, List.length_append, List.length_nil] at hlen
      have h0 : 0 < (natChars (m / 10)).length :=
        List.length_pos.mpr (natChars_ne_nil (m / 10))
      omega
    · rw [natChars_ge n hn, natChars_lt m hm] at h
      have hlen := congrArg List.length h
      simp only [List.length_cons, List.length_append, List.length_nil] at hlen
      have h0 : 0 < (natChars (n / 10)).length :=
        List.length_pos.mpr (natChars_ne_nil (n / 10))
      omega
    · rw [natChars_ge n hn, natChars_ge m hm] at h
      obtain ⟨h1, h2⟩ := List.append_inj' h (by simp)
      have hdiv := ih (n / 10) (Nat.div_lt_self (by omega) (by omega)) (m / 10) h1
      simp at h2
      have hmod := digitChar_inj (n % 10) (Nat.mod_lt n (by omega)) (m % 10)
        (Nat.mod_lt m (by omega)) h2
      omega

theorem repr_data_eq_natChars (n : Nat) : (Nat.repr n).data = natChars n := by
  have hpow : n < 10 ^ (n + 1) := by
    calc n < 10 ^ n := Nat.lt_pow_self (by omega) n
    _ ≤ 10 ^ (n + 1) := Nat.pow_le_pow_right (by omega) (by omega)
  have key : ∀ (f k : Nat) (acc : List Char), k < 10 ^ (f + 1) →
      Nat.toDigitsCore 10 (f + 1) k acc = natChars k ++ acc := by
    intro f
    induction f with
    | zero =>
      intro k acc hk
      have h10 : k < 10 := by simpa using hk
      have hdiv : k / 10 = 0 := Nat.div_eq_of_lt h10
      simp [Nat.toDigitsCore, hdiv, natChars_lt k h10, Nat.mod_eq_of_lt h10]
    | succ f ihf =>
      intro k acc hk
      by_cases h10 : k < 10
      · have hdiv : k / 10 = 0 := Nat.div_eq_of_lt h10
        simp [Nat.toDigitsCore, hdiv, natChars_lt k h10, Nat.mod_eq_of_lt h10]
      · have hdiv : k / 10 ≠ 0 := by
          intro h0
          exact h10 ((Nat.div_eq_zero_iff (by omega)).mp h0)
        have hlt : k / 10 < 10 ^ (f + 1) := by
          have h1 : 10 ^ (f + 1 + 1) = 10 * 10 ^ (f + 1) := by ring
          rw [h1] at hk
          exact Nat.div_lt_of_lt_mul hk
        rw [Nat.toDigitsCore]
        simp only [hdiv, if_false]
        rw [ihf (k / 10) _ hlt, natChars_ge k h10]
        simp [List.append_assoc]
  show (Nat.toDigitsCore 10 (n + 1) n []).asString.data = natChars n
  rw [key n n [] hpow]
  simp [List.asString]

theorem nat_repr_data_inj (n m : Nat)
    (h : (Nat.repr n).data = (Nat.repr m).data) : n = m :=
  natChars_inj n m (by
    rw [← repr_data_eq_natChars, ← repr_data_eq_natChars, h])

theorem digit_prefix_eq (a : List Char) :
    ∀ (b ta tb : List Char), (∀ c ∈ a, c.isDigit = true) →
    (∀ c ∈ b, c.isDigit = true) →
    a ++ '_' :: ta = b ++ '_' :: tb → a = b ∧ ta = tb := by
  induction a with
  | nil =>
    intro b ta tb _ hb h
    cases b with
    | nil => simpa using h
    | cons c bs =>
      simp at h
      obtain ⟨hc, _⟩ := h
      have hd := hb c (by simp)
      rw [← hc] at hd
      simp at hd
  | cons c as ih =>
    intro b ta tb ha hb h
    cases b with
    | nil =>
      simp at h
      obtain ⟨hc, _⟩ := h
      have hd := ha c (by simp)
      rw [hc] at hd
      simp at hd
    | cons c2 bs =>
      simp at h
      obtain ⟨hc, hrest⟩ := h
      obtain ⟨h1, h2⟩ := ih bs ta tb (fun x hx => ha x (by simp [hx]))
        (fun x hx => hb x (by simp [hx])) hrest
      exact ⟨by rw [hc, h1], h2⟩

/-- Extract equality of the digit blocks sitting between the last
underscore and the final closing character. -/
theorem mid_digit_eq (u1 u2 d1 d2 : List Char) (c : Char)
    (hd1 : ∀ x ∈ d1, x.isDigit = true) (hd2 : ∀ x ∈ d2, x.isDigit = true)
    (h : u1 ++ '_' :: (d1 ++ [c]) = u2 ++ '_' :: (d2 ++ [c])) : d1 = d2 := by
  have hsh : ∀ (u d : List Char),
      (u ++ '_' :: (d ++ [c])).reverse =
        c :: (d.reverse ++ '_' :: u.reverse) := by
    intro u d
    simp [List.reverse_append]
  have hrev := congrArg List.reverse h
  rw [hsh, hsh] at hrev
  simp only [List.cons.injEq, true_and] at hrev
  have hdig1 : ∀ x ∈ d1.reverse, x.isDigit = true := by
    intro x hx
    exact hd1 x (List.mem_reverse.mp hx)
  have hdig2 : ∀ x ∈ d2.reverse, x.isDigit = true := by
    intro x hx
    exact hd2 x (List.mem_reverse.mp hx)
  have := (digit_prefix_eq d1.reverse d2.reverse u1.reverse u2.reverse
    hdig1 hdig2 hrev).1
  exact List.reverse_injective this

/-- The counter component makes the synthesized tokens injective: tokens
built with distinct pool sizes differ whatever the keys are. -/
theorem spillToken_counter_inj (k1 k2 : String) (n m : Nat)
    (h : spillToken k1 n = spillToken k2 m) : n = m := by
  have hd : (spillToken k1 n).data = (spillToken k2 m).data := by rw [h]
  have hshape : ∀ (k : String) (j : Nat), (spillToken k j).data =
      '$' :: '\x7b' :: ((strUpper k).data ++ '_' ::
        ((Nat.repr j).data ++ ['\x7d'])) := by
    intro k j
    have h1 : ("$\x7b" : String).data = ['$', '\x7b'] := rfl
    have h2 : ("_" : String).data = ['_'] := rfl
    have h3 : ("\x7d" : String).data = ['\x7d'] := rfl
    simp [spillToken, String.data_append, h1, h2, h3]
  rw [hshape, hshape] at hd
  simp only [List.cons.injEq, true_and] at hd
  have hdig : ∀ (j : Nat), ∀ x ∈ (Nat.repr j).data, x.isDigit = true := by
    intro j
    rw [repr_data_eq_natChars]
    exact natChars_digits j
  exact nat_repr_data_inj n m
    (mid_digit_eq (strUpper k1).data (strUpper k2).data _ _ '\x7d'
      (hdig n) (hdig m) hd)

theorem dinsert_eq_append (d : PyDict) (k : String) (v : Value)
    (h : ∀ p ∈ d, p.1 ≠ k) : dinsert d k v = d ++ [(k, v)] := by
  induction d with
  | nil => rfl
  | cons p tl ih =>
    obtain ⟨k2, v2⟩ := p
    have hne : k2 ≠ k := h (k2, v2) (by simp)
    simp [dinsert, hne, ih (fun q hq => h q (by simp [hq]))]

theorem poolOK_nil : poolOK [] := by
  intro i h
  simp at h

/-- In a well-formed pool the token synthesized from the current pool size
is fresh. -/
theorem poolOK_token_fresh (pool : PyDict) (hOK : poolOK pool) (k : String) :
    ∀ p ∈ pool, p.1 ≠ spillToken k pool.length := by
  intro p hp heq
  obtain ⟨i, hget⟩ := List.mem_iff_get.mp hp
  obtain ⟨k2, hk2⟩ := hOK i.val i.isLt
  have htt : spillToken k2 i.val = spillToken k pool.length := by
    have hfin : (⟨i.val, i.isLt⟩ : Fin pool.length) = i := rfl
    rw [hfin] at hk2
    rw [hget] at hk2
    rw [← hk2, heq]
  have := spillToken_counter_inj k2 k i.val pool.length htt
  have hlt := i.isLt
  omega

theorem poolOK_append_token (pool : PyDict) (hOK : poolOK pool) (k : String)
    (v : Value) : poolOK (pool ++ [(spillToken k pool.length, v)]) := by
  intro i h
  simp only [List.length_append, List.length_cons, List.length_nil] at h
  by_cases hi : i < pool.length
  · obtain ⟨k2, hk2⟩ := hOK i hi
    refine ⟨k2, ?_⟩
    simp only [List.get_eq_getElem] at hk2 ⊢
    rw [List.getElem_append_left hi]
    exact hk2
  · have hieq : i = pool.length := by omega
    subst hieq
    refine ⟨k, ?_⟩
    simp only [List.get_eq_getElem]
    rw [List.getElem_append_right (by omega)]
    simp

/-- The keys of a well-formed pool are pairwise distinct. -/
theorem poolOK_nodup (pool : PyDict) (hOK : poolOK pool) :
    (pool.map Prod.fst).Nodup := by
  rw [List.nodup_iff_injective_get]
  intro i j hij
  have hi2 : i.val < pool.length := by
    have := i.isLt
    simpa using this
  have hj2 : j.val < pool.length := by
    have := j.isLt
    simpa using this
  obtain ⟨ki, hki⟩ := hOK i.val hi2
  obtain ⟨kj, hkj⟩ := hOK j.val hj2
  have hgi : (pool.map Prod.fst).get i = (pool.get ⟨i.val, hi2⟩).1 := by
    simp [List.get_eq_getElem]
  have hgj : (pool.map Prod.fst).get j = (pool.get ⟨j.val, hj2⟩).1 := by
    simp [List.get_eq_getElem]
  rw [hgi, hgj, hki, hkj] at hij
  have := spillToken_counter_inj ki kj i.val j.val hij
  exact Fin.ext (by simpa using this)

theorem isCollection_if_longBytes (v : Value) :
    (if v.isLongBytes = true then Value.str "<bytes>" else v).isCollection =
      v.isCollection := by
  by_cases h : v.isLongBytes = true
  · cases v <;> simp_all [Value.isLongBytes, Value.isCollection]
  · simp [h]

theorem poolOK_specSpill (d : PyDict) :
    ∀ pool : PyDict, poolOK pool → poolOK (pool ++ specSpill d pool.length) := by
  induction d with
  | nil =>
    intro pool hOK
    simpa [specSpill] using hOK
  | cons p tl ih =>
    obtain ⟨k, v⟩ := p
    intro pool hOK
    by_cases hv : v.truthy = true
    · by_cases hc : v.isCollection = true
      · rw [specSpill]
        simp only [hv, hc, if_true]
        have hstep := poolOK_append_token pool hOK k v
        have hlen : (pool ++ [(spillToken k pool.length, v)]).length =
            pool.length + 1 := by simp
        have := ih (pool ++ [(spillToken k pool.length, v)]) hstep
        rw [hlen] at this
        simpa [List.append_assoc] using this
      · rw [specSpill]
        simp only [hv, hc, if_true, Bool.false_eq_true, if_false]
        exact ih pool hOK
    · rw [specSpill]
      simp only [hv, Bool.false_eq_true, if_false]
      exact ih pool hOK

/-- The loop of _format_dict refines the specification functions: starting
from a well-formed pool, it emits exactly the spec rows and appends exactly
the spec pool entries. -/
theorem format_dict_go_spec (d : PyDict) :
    ∀ pool : PyDict, poolOK pool →
    _format_dict_go d pool = (specLines d pool.length,
      pool ++ specSpill d pool.length) := by
  induction d with
  | nil =>
    intro pool hOK
    simp [_format_dict_go, specLines, specSpill]
  | cons p tl ih =>
    obtain ⟨k, v⟩ := p
    intro pool hOK
    by_cases hv : v.truthy = true
    · by_cases hc : v.isCollection = true
      · have hnb : v.isLongBytes = false := by
          cases v <;> simp_all [Value.isCollection, Value.isLongBytes]
        have hfresh : dinsert pool (spillToken k pool.length) v =
            pool ++ [(spillToken k pool.length, v)] :=
          dinsert_eq_append pool _ v (poolOK_token_fresh pool hOK k)
        have hOK2 := poolOK_append_token pool hOK k v
        have hlen : (pool ++ [(spillToken k pool.length, v)]).length =
            pool.length + 1 := by simp
        rw [_format_dict_go]
        simp only [hv, if_true, hnb, Bool.false_eq_true, if_false, hc, hfresh]
        rw [ih _ hOK2, hlen]
        rw [specLines, specSpill]
        simp [hv, hc, List.append_assoc]
      · rw [_format_dict_go]
        simp only [hv, if_true, hc]
        by_cases hb : v.isLongBytes = true
        · simp only [hb, if_true]
          have hsc : (Value.str "<bytes>").isCollection = false := rfl
          simp only [hsc, Bool.false_eq_true, if_false]
          rw [ih pool hOK]
          rw [specLines, specSpill]
          simp [hv, hc, hb]
        · simp only [hb, Bool.false_eq_true, if_false, hc]
          rw [ih pool hOK]
          rw [specLines, specSpill]
          simp [hv, hc, hb]
    · rw [_format_dict_go]
      simp only [hv, Bool.false_eq_true, if_false]
      rw [ih pool hOK]
      rw [specLines, specSpill]
      simp [hv]

/-- Claim C9 (amended): rendering a mapping field against a well-formed
overflow pool emits exactly the spec rows and pool entries: every truthy
collection-valued entry is replaced inline by its synthesized token with
exactly one pool entry keyed by that token holding the real value, every
byte value above the threshold is truncated inline to the fixed marker
with no pool entry, the token keys of the resulting pool are pairwise
distinct, and the renderer prints the pool as a separate labeled section
after all instructions exactly when it is non-empty. -/
theorem collections_spill_to_pool (d pool : PyDict) (hOK : poolOK pool) :
    _format_dict d pool =
      (String.intercalate "\n" ("" :: specLines d pool.length),
        pool ++ specSpill d pool.length) ∧
    ((pool ++ specSpill d pool.length).map Prod.fst).Nodup ∧
    _write_spillover [] = [] ∧
    (∀ (k : String) (v : Value) (rest : PyDict),
      _write_spillover ((k, v) :: rest) =
        "Variable Pool\n" :: "=============\n\n" ::
          spilloverEntryWrites ((k, v) :: rest)) ∧
    (∀ plan : List Instruction, DisplayOnlyExecutor.execute plan =
      "Plan\n" :: "====\n\n" ::
        ((renderAll plan []).1 ++ _write_spillover (renderAll plan []).2)) := by
  refine ⟨?_, ?_, rfl, ?_, ?_⟩
  · simp only [_format_dict, format_dict_go_spec d pool hOK]
  · exact poolOK_nodup _ (poolOK_specSpill d pool hOK)
  · intro k v rest
    simp [_write_spillover]
  · intro plan
    rfl

/-- Witness for C9 (amended) at a concrete field mapping holding one
nested collection and one oversized byte value, against the empty pool. -/
theorem collections_spill_to_pool_witness :
    _format_dict [("cfg", Value.dict [("x", Value.str "y")]),
        ("data", Value.bytes (List.replicate 31 0))] [] =
      (String.intercalate "\n" ("" :: specLines [("cfg",
          Value.dict [("x", Value.str "y")]),
          ("data", Value.bytes (List.replicate 31 0))] 0),
        specSpill [("cfg", Value.dict [("x", Value.str "y")]),
          ("data", Value.bytes (List.replicate 31 0))] 0) ∧
    ((specSpill [("cfg", Value.dict [("x", Value.str "y")]),
        ("data", Value.bytes (List.replicate 31 0))] 0).map Prod.fst).Nodup ∧
    _write_spillover [] = [] ∧
    (∀ (k : String) (v : Value) (rest : PyDict),
      _write_spillover ((k, v) :: rest) =
        "Variable Pool\n" :: "=============\n\n" ::
          spilloverEntryWrites ((k, v) :: rest)) ∧
    (∀ plan : List Instruction, DisplayOnlyExecutor.execute plan =
      "Plan\n" :: "====\n\n" ::
        ((renderAll plan []).1 ++ _write_spillover (renderAll plan []).2)) :=
  collections_spill_to_pool
    [("cfg", Value.dict [("x", Value.str "y")]),
      ("data", Value.bytes (List.replicate 31 0))] [] poolOK_nil

/-- Counterexample to C9 as stated: a byte value above the threshold gets
no reference token and no overflow-pool entry; it is truncated inline to
the fixed marker and the pool stays empty. -/
theorem long_bytes_not_spilled_counterexample :
    (_format_dict [("data", .bytes (List.replicate 31 0))] []).2 = [] ∧
    (_format_dict [("data", .bytes (List.replicate 31 0))] []).1 =
      "\n" ++ formatDictRow "data" (.str "<bytes>") :=
  ⟨rfl, rfl⟩

theorem Value.beq_str (a b : String) :
    Value.beq (.str a) (.str b) = (a == b) := rfl

theorem dlookup_eq_none (d : PyDict) (k : String) (h : ∀ q ∈ d, q.1 ≠ k) :
    dlookup d k = Option.none := by
  induction d with
  | nil => rfl
  | cons p tl ih =>
    obtain ⟨k2, v2⟩ := p
    have hne : k2 ≠ k := h (k2, v2) (by simp)
    simp [dlookup, hne, ih (fun q hq => h q (by simp [hq]))]

/-- Updating a dict under a key not present in the update keeps untouched
entries in front. -/
theorem dictUpdate_cons_notin (k : String) (v : Value) (d0 : PyDict)
    (p : PyDict) (h : ∀ q ∈ p, q.1 ≠ k) :
    dictUpdate ((k, v) :: d0) p = (k, v) :: dictUpdate d0 p := by
  induction p generalizing d0 with
  | nil => rfl
  | cons q tl ih =>
    obtain ⟨k2, v2⟩ := q
    have hne : k ≠ k2 := fun hh => h (k2, v2) (by simp) hh.symm
    show dictUpdate (dinsert ((k, v) :: d0) k2 v2) tl = _
    rw [show dinsert ((k, v) :: d0) k2 v2 = (k, v) :: dinsert d0 k2 v2 by
      simp [dinsert, hne]]
    exact ih (dinsert d0 k2 v2) (fun q hq => h q (by simp [hq]))

/-- dict.update into the empty dict rebuilds a duplicate-free payload. -/
theorem dictUpdate_nil (p : PyDict) (h : (p.map Prod.fst).Nodup) :
    dictUpdate [] p = p := by
  induction p with
  | nil => rfl
  | cons q tl ih =>
    obtain ⟨k, v⟩ := q
    simp only [List.map_cons, List.nodup_cons] at h
    show dictUpdate (dinsert [] k v) tl = _
    rw [show dinsert [] k v = [(k, v)] from rfl]
    rw [dictUpdate_cons_notin k v [] tl
      (fun q hq hh => h.1 (hh ▸ List.mem_map_of_mem Prod.fst hq))]
    rw [ih h.2]

/-- Looking up after dict.update: keys of the payload win, everything else
falls through, provided the payload has duplicate-free keys. -/
theorem dlookup_dictUpdate (p : PyDict) (h : (p.map Prod.fst).Nodup) :
    ∀ (d : PyDict) (k : String),
    dlookup (dictUpdate d p) k = (dlookup p k).or (dlookup d k) := by
  induction p with
  | nil => intro d k; simp [dictUpdate, dlookup]
  | cons q tl ih =>
    obtain ⟨k2, v2⟩ := q
    simp only [List.map_cons, List.nodup_cons] at h
    intro d k
    show dlookup (dictUpdate (dinsert d k2 v2) tl) k = _
    rw [ih h.2 (dinsert d k2 v2) k]
    by_cases hk : k2 = k
    · subst hk
      rw [dlookup_dinsert_self]
      have htl : dlookup tl k2 = Option.none :=
        dlookup_eq_none tl k2
          (fun q hq hh => h.1 (hh ▸ List.mem_map_of_mem Prod.fst hq))
      simp [dlookup, htl]
    · rw [dlookup_dinsert_ne d k2 k v2 hk]
      simp [dlookup, hk]

/-- dict.update keeps the name entry of the payload. -/
theorem nameStr_dictUpdate (r p : PyDict) (hp : strNamed p)
    (hnd : (p.map Prod.fst).Nodup) : nameStr (dictUpdate r p) = nameStr p := by
  obtain ⟨s, hs⟩ := hp
  rw [nameStr, nameStr, dlookup_dictUpdate p hnd r "name", hs]
  rfl

/-- On a record list with duplicate-free string names, merging into the
first matching record is a pointwise update of the single match. -/
theorem updateFirstRecord_eq_map (R : List PyDict) (np : String) (p : PyDict)
    (hR : ∀ r ∈ R, strNamed r) (hnd : (R.map nameStr).Nodup) :
    updateFirstRecord R (.str np) p =
      R.map (fun r => if nameStr r = np then dictUpdate r p else r) := by
  induction R with
  | nil => rfl
  | cons r tl ih =>
    simp only [List.map_cons, List.nodup_cons] at hnd
    obtain ⟨s, hs⟩ := hR r (by simp)
    have hrec : recName r = .str s := by rw [recName, hs]; rfl
    have hns : nameStr r = s := by rw [nameStr, hs]
    by_cases hmatch : s = np
    · subst hmatch
      rw [updateFirstRecord, hrec]
      simp only [Value.beq_str, beq_self_eq_true, if_true, List.map_cons, hns]
      have hids : ∀ (l : List PyDict), (∀ r2 ∈ l, nameStr r2 ≠ s) →
          l.map (fun r2 => if nameStr r2 = s then dictUpdate r2 p else r2) = l := by
        intro l hl
        induction l with
        | nil => rfl
        | cons a b ihb =>
          rw [List.map_cons, if_neg (hl a (by simp)),
            ihb (fun x hx => hl x (by simp [hx]))]
      have hneq : ∀ r2 ∈ tl, nameStr r2 ≠ s := by
        intro r2 hr2 hh
        apply hnd.1
        rw [hns, ← hh]
        exact List.mem_map_of_mem nameStr hr2
      rw [hids tl hneq]
    · rw [updateFirstRecord, hrec]
      have hb : (s == np) = false := by
        simp [hmatch]
      simp only [Value.beq_str, hb, Bool.false_eq_true, if_false, List.map_cons,
        hns]
      rw [if_neg hmatch]
      rw [ih (fun q hq => hR q (by simp [hq])) hnd.2]

/-- A payload whose name matches no existing record is appended. -/
theorem add_new_name (R : List PyDict) (p : PyDict)
    (h : ∀ r ∈ R, Value.beq (recName r) (recName p) = false) :
    _add_to_deployed_values R p = R ++ [p] := by
  rw [_add_to_deployed_values]
  have hany : (R.any fun r => Value.beq (recName r) (recName p)) = false := by
    rw [List.any_eq_false]
    intro r hr
    simp [h r hr]
  simp [hany]

/-- A payload whose name matches some record is merged into the first
match. -/
theorem add_existing_name (R : List PyDict) (p : PyDict)
    (h : (R.any fun r => Value.beq (recName r) (recName p)) = true) :
    _add_to_deployed_values R p = updateFirstRecord R (recName p) p := by
  rw [_add_to_deployed_values]
  simp [h]

theorem dedupFirstGo_congr (l : List String) :
    ∀ s1 s2, (∀ x, x ∈ s1 ↔ x ∈ s2) →
    dedupFirstGo s1 l = dedupFirstGo s2 l := by
  induction l with
  | nil => intro s1 s2 _; rfl
  | cons n tl ih =>
    intro s1 s2 hiff
    by_cases hn : n ∈ s1
    · rw [dedupFirstGo, dedupFirstGo, if_pos hn, if_pos ((hiff n).mp hn)]
      exact ih s1 s2 hiff
    · have hn2 : n ∉ s2 := fun hh => hn ((hiff n).mpr hh)
      rw [dedupFirstGo, dedupFirstGo, if_neg hn, if_neg hn2]
      rw [ih (n :: s1) (n :: s2) (fun x => by simp [hiff x])]

theorem dedupFirstGo_nodup (l : List String) : ∀ seen,
    (dedupFirstGo seen l).Nodup ∧ ∀ x ∈ dedupFirstGo seen l, x ∉ seen := by
  induction l with
  | nil => intro seen; simp [dedupFirstGo]
  | cons n tl ih =>
    intro seen
    by_cases hn : n ∈ seen
    · rw [dedupFirstGo, if_pos hn]
      exact ih seen
    · rw [dedupFirstGo, if_neg hn]
      obtain ⟨hnd, havoid⟩ := ih (n :: seen)
      refine ⟨List.nodup_cons.mpr ⟨fun hh => havoid n hh (by simp), hnd⟩, ?_⟩
      intro x hx
      rcases List.mem_cons.mp hx with hh | hh
      · subst hh; exact hn
      · exact fun hxs => havoid x hh (by simp [hxs])

theorem lastAttr_cons (p : PyDict) (tl : List PyDict) (k : String) :
    lastAttr (p :: tl) k = (lastAttr tl k).or (dlookup p k) := by
  have hacc : ∀ (l : List PyDict) (acc : Option Value),
      l.foldl (fun a q => match dlookup q k with
        | some v => some v
        | Option.none => a) acc = (lastAttr l k).or acc := by
    intro l
    induction l with
    | nil => intro acc; simp [lastAttr]
    | cons q tl2 ih =>
      intro acc
      show List.foldl _ (match dlookup q k with
        | some v => some v | Option.none => acc) tl2 = _
      rw [ih]
      rw [show lastAttr (q :: tl2) k = List.foldl _ (match dlookup q k with
        | some v => some v | Option.none => Option.none) tl2 from rfl]
      rw [ih]
      cases dlookup q k <;> cases lastAttr tl2 k <;> rfl
  rw [show lastAttr (p :: tl) k = List.foldl _ (match dlookup p k with
    | some v => some v | Option.none => Option.none) tl from rfl]
  rw [hacc]
  cases dlookup p k <;> rfl

theorem dlookup_foldl_dictUpdate (pls : List PyDict) (k : String) :
    ∀ d0, (∀ p ∈ pls, (p.map Prod.fst).Nodup) →
    dlookup (pls.foldl dictUpdate d0) k = (lastAttr pls k).or (dlookup d0 k) := by
  induction pls with
  | nil => intro d0 _; simp [lastAttr]
  | cons p tl ih =>
    intro d0 h
    show dlookup (tl.foldl dictUpdate (dictUpdate d0 p)) k = _
    rw [ih (dictUpdate d0 p) (fun q hq => h q (by simp [hq]))]
    rw [dlookup_dictUpdate p (h p (by simp)) d0 k]
    rw [lastAttr_cons]
    cases lastAttr tl k <;> cases dlookup p k <;> rfl

theorem strNamed_dictUpdate (r p : PyDict) (hp : strNamed p)
    (hnd : (p.map Prod.fst).Nodup) : strNamed (dictUpdate r p) := by
  obtain ⟨s, hs⟩ := hp
  refine ⟨s, ?_⟩
  rw [dlookup_dictUpdate p hnd r "name", hs]
  rfl

/-- The merge loop groups payloads by resource name: folding a payload
sequence (string names, duplicate-free keys) into a record list with
duplicate-free string names merges each payload into the record of its
name, appending a fresh record per first-seen new name, in order. -/
theorem foldl_add_grouped (pls : List PyDict) :
    ∀ R : List PyDict,
    (∀ p ∈ pls, strNamed p) →
    (∀ p ∈ pls, (p.map Prod.fst).Nodup) →
    (∀ r ∈ R, strNamed r) →
    (R.map nameStr).Nodup →
    pls.foldl _add_to_deployed_values R =
      R.map (fun r =>
        (pls.filter (fun p => nameStr p == nameStr r)).foldl dictUpdate r) ++
      (dedupFirstGo (R.map nameStr) (pls.map nameStr)).map
        (fun nn => (pls.filter (fun p => nameStr p == nn)).foldl dictUpdate []) := by
  induction pls with
  | nil =>
    intro R _ _ _ _
    simp [dedupFirstGo]
  | cons p pls2 ih =>
    intro R hstr hkeys hRstr hRnd
    obtain ⟨np, hnp⟩ := hstr p (by simp)
    have hpname : nameStr p = np := by rw [nameStr, hnp]
    have hprec : recName p = .str np := by rw [recName, hnp]; rfl
    have hpkeys := hkeys p (by simp)
    rw [List.foldl_cons]
    by_cases hmem : np ∈ R.map nameStr
    · -- the name already has a record: merge into it
      have hany : (R.any fun r => Value.beq (recName r) (recName p)) = true := by
        rw [List.any_eq_true]
        obtain ⟨r, hr, hrn⟩ := List.mem_map.mp hmem
        obtain ⟨s, hs⟩ := hRstr r hr
        have : nameStr r = s := by rw [nameStr, hs]
        refine ⟨r, hr, ?_⟩
        rw [hprec, show recName r = .str s by rw [recName, hs]; rfl,
          Value.beq_str]
        simp [this ▸ hrn]
      rw [add_existing_name R p hany, hprec,
        updateFirstRecord_eq_map R np p hRstr hRnd]
      set R2 := R.map (fun r => if nameStr r = np then dictUpdate r p else r)
        with hR2
      have hR2names : R2.map nameStr = R.map nameStr := by
        rw [hR2, List.map_map]
        apply List.map_congr_left
        intro r hr
        by_cases hmatch : nameStr r = np
        · simp only [Function.comp_apply, if_pos hmatch]
          rw [nameStr_dictUpdate r p ⟨np, hnp⟩ hpkeys, hpname, hmatch]
        · simp only [Function.comp_apply, if_neg hmatch]
      have hR2str : ∀ r ∈ R2, strNamed r := by
        intro r hr
        rw [hR2] at hr
        obtain ⟨r0, hr0, hup⟩ := List.mem_map.mp hr
        by_cases hmatch : nameStr r0 = np
        · rw [if_pos hmatch] at hup
          rw [← hup]
          exact strNamed_dictUpdate r0 p ⟨np, hnp⟩ hpkeys
        · rw [if_neg hmatch] at hup
          rw [← hup]
          exact hRstr r0 hr0
      have hR2nd : (R2.map nameStr).Nodup := by rw [hR2names]; exact hRnd
      rw [ih R2 (fun q hq => hstr q (by simp [hq]))
        (fun q hq => hkeys q (by simp [hq])) hR2str hR2nd]
      congr 1
      · -- merged part
        rw [hR2, List.map_map]
        apply List.map_congr_left
        intro r hr
        by_cases hmatch : nameStr r = np
        · simp only [Function.comp_apply, if_pos hmatch]
          rw [nameStr_dictUpdate r p ⟨np, hnp⟩ hpkeys, hpname,
            List.filter_cons, hmatch]
          simp [hpname]
        · simp only [Function.comp_apply, if_neg hmatch]
          rw [List.filter_cons]
          have : (nameStr p == nameStr r) = false := by
            rw [hpname]
            simp only [beq_eq_false_iff_ne, ne_eq]
            intro hh
            exact hmatch hh.symm
          simp [this]
      · -- new-name part
        rw [hR2names, List.map_cons, hpname, dedupFirstGo, if_pos hmem]
        apply List.map_congr_left
        intro nn hnn
        have hnot := (dedupFirstGo_nodup (pls2.map nameStr) (R.map nameStr)).2
          nn hnn
        have hne : (nameStr p == nn) = false := by
          rw [hpname]
          simp only [beq_eq_false_iff_ne, ne_eq]
          intro hh
          exact hnot (hh ▸ hmem)
        rw [List.filter_cons, hne]
        simp
    · -- a first-seen name: append a fresh record
      have hany : ∀ r ∈ R, Value.beq (recName r) (recName p) = false := by
        intro r hr
        obtain ⟨s, hs⟩ := hRstr r hr
        have hsn : nameStr r = s := by rw [nameStr, hs]
        rw [hprec, show recName r = .str s by rw [recName, hs]; rfl,
          Value.beq_str]
        simp only [beq_eq_false_iff_ne, ne_eq]
        intro hh
        exact hmem (by
          rw [← hh, ← hsn]
          exact List.mem_map_of_mem nameStr hr)
      rw [add_new_name R p hany]
      have happstr : ∀ r ∈ R ++ [p], strNamed r := by
        intro r hr
        rcases List.mem_append.mp hr with hh | hh
        · exact hRstr r hh
        · simp at hh
          subst hh
          exact ⟨np, hnp⟩
      have happnames : (R ++ [p]).map nameStr = R.map nameStr ++ [np] := by
        simp [hpname]
      have happnd : ((R ++ [p]).map nameStr).Nodup := by
        rw [happnames]
        simp only [List.nodup_append]
        exact ⟨hRnd, by simp, by simpa using fun hh => hmem hh⟩
      rw [ih (R ++ [p]) (fun q hq => hstr q (by simp [hq]))
        (fun q hq => hkeys q (by simp [hq])) happstr happnd]
      rw [List.map_append, happnames]
      have hdedup : dedupFirstGo (R.map nameStr ++ [np]) (pls2.map nameStr) =
          dedupFirstGo (np :: R.map nameStr) (pls2.map nameStr) :=
        dedupFirstGo_congr (pls2.map nameStr) _ _ (fun x => by simp [or_comm])
      rw [hdedup]
      have hstep : dedupFirstGo (R.map nameStr) (np :: pls2.map nameStr) =
          np :: dedupFirstGo (np :: R.map nameStr) (pls2.map nameStr) := by
        rw [dedupFirstGo, if_neg hmem]
      conv_rhs => rw [List.map_cons, hpname, hstep, List.map_cons]
      have hfirst : R.map (fun r =>
          (pls2.filter (fun q => nameStr q == nameStr r)).foldl dictUpdate r) =
          R.map (fun r =>
          ((p :: pls2).filter (fun q => nameStr q == nameStr r)).foldl
            dictUpdate r) := by
        apply List.map_congr_left
        intro r hr
        rw [List.filter_cons]
        have : (nameStr p == nameStr r) = false := by
          rw [hpname]
          simp only [beq_eq_false_iff_ne, ne_eq]
          intro hh
          exact hmem (hh ▸ List.mem_map_of_mem nameStr hr)
        simp [this]
      have hpgroup :
          (pls2.filter (fun q => nameStr q == np)).foldl dictUpdate p =
          ((p :: pls2).filter (fun q => nameStr q == np)).foldl dictUpdate [] := by
        rw [List.filter_cons]
        have : (nameStr p == np) = true := by simp [hpname]
        simp only [this, if_true]
        rw [List.foldl_cons, dictUpdate_nil p hpkeys]
      have hrest : (dedupFirstGo (np :: R.map nameStr) (pls2.map nameStr)).map
          (fun nn => (pls2.filter (fun q => nameStr q == nn)).foldl
            dictUpdate []) =
          (dedupFirstGo (np :: R.map nameStr) (pls2.map nameStr)).map
          (fun nn => ((p :: pls2).filter (fun q => nameStr q == nn)).foldl
            dictUpdate []) := by
        apply List.map_congr_left
        intro nn hnn
        have hnot := (dedupFirstGo_nodup (pls2.map nameStr)
          (np :: R.map nameStr)).2 nn hnn
        have hne : (nameStr p == nn) = false := by
          rw [hpname]
          simp only [beq_eq_false_iff_ne, ne_eq]
          intro hh
          exact hnot (by simp [hh])
        rw [List.filter_cons, hne]
        simp
      conv_rhs => rw [← hfirst, ← hpgroup, ← hrest]
      simp [List.append_assoc]
      rw [hpname]

/-- The payload dict literal of the record handlers, written out, for an
attribute name distinct from the two fixed keys. -/
theorem payload_explicit (rt rn n : String) (val : Value)
    (h1 : n ≠ "name") (h2 : n ≠ "resource_type") :
    buildDict [("name", .str rn), ("resource_type", .str rt), (n, val)] =
      [("name", Value.str rn), ("resource_type", Value.str rt), (n, val)] := by
  show dinsert (dinsert (dinsert [] "name" (Value.str rn)) "resource_type"
    (Value.str rt)) n val = _
  rw [show dinsert ([] : PyDict) "name" (Value.str rn) =
    [("name", Value.str rn)] from rfl]
  rw [show dinsert [("name", Value.str rn)] "resource_type" (Value.str rt) =
    [("name", Value.str rn), ("resource_type", Value.str rt)] from rfl]
  rw [dinsert, if_neg (Ne.symm h1), dinsert, if_neg (Ne.symm h2)]
  rfl

theorem payloadOf_strNamed (i : Instruction) (vars : PyDict)
    (hrec : isRecordInstr i = true)
    (h1 : recAttrName i ≠ "name") (h2 : recAttrName i ≠ "resource_type") :
    strNamed (payloadOf i vars) ∧
    ((payloadOf i vars).map Prod.fst).Nodup ∧
    nameStr (payloadOf i vars) = recResourceName i := by
  cases i with
  | recordresourcevariable rt rn n vn =>
    rw [recAttrName] at h1 h2
    rw [payloadOf, payload_explicit rt rn n _ h1 h2]
    refine ⟨⟨rn, by simp [dlookup]⟩, ?_, ?_⟩
    · have e1 : ("name" : String) ≠ "resource_type" := by decide
      simp [List.nodup_cons, e1, Ne.symm h1, Ne.symm h2]
    · simp [nameStr, dlookup, recResourceName]
  | recordresourcevalue rt rn n v =>
    rw [recAttrName] at h1 h2
    rw [payloadOf, payload_explicit rt rn n _ h1 h2]
    refine ⟨⟨rn, by simp [dlookup]⟩, ?_, ?_⟩
    · have e1 : ("name" : String) ≠ "resource_type" := by decide
      simp [List.nodup_cons, e1, Ne.symm h1, Ne.symm h2]
    · simp [nameStr, dlookup, recResourceName]
  | apicall m p o => simp [isRecordInstr] at hrec
  | copyvariable f t => simp [isRecordInstr] at hrec
  | storevalue n v => simp [isRecordInstr] at hrec
  | jpsearch e iv o => simp [isRecordInstr] at hrec
  | builtinfunction f a o => simp [isRecordInstr] at hrec
  | other c fs => simp [isRecordInstr] at hrec

/-- On a plan of record instructions whose variable lookups succeed, the
executor leaves the store unchanged and folds the payloads through the
merge loop. -/
theorem executeFrom_records (ext : Externals) (instrs : List Instruction) :
    ∀ (vars : PyDict) (R : List PyDict),
    (∀ i ∈ instrs, isRecordInstr i = true) →
    (∀ i ∈ instrs, recordVarBound i vars = true) →
    executeFrom ext instrs ⟨vars, R⟩ =
      .ok ⟨vars, (instrs.map (fun i => payloadOf i vars)).foldl
        _add_to_deployed_values R⟩ := by
  induction instrs with
  | nil => intro vars R _ _; rfl
  | cons i tl ih =>
    intro vars R hrec hbound
    have hi := hrec i (by simp)
    have htlrec : ∀ q ∈ tl, isRecordInstr q = true :=
      fun q hq => hrec q (List.mem_cons_of_mem i hq)
    have htlbound : ∀ q ∈ tl, recordVarBound q vars = true :=
      fun q hq => hbound q (List.mem_cons_of_mem i hq)
    cases i with
    | recordresourcevariable rt rn n vn =>
      have hb := hbound (Instruction.recordresourcevariable rt rn n vn)
        (by simp)
      rw [recordVarBound] at hb
      obtain ⟨v, hv⟩ := Option.isSome_iff_exists.mp hb
      simp only [executeFrom, execute_instruction, _do_recordresourcevariable,
        hv]
      rw [ih vars _ htlrec htlbound]
      simp only [List.map_cons, List.foldl_cons, payloadOf, hv,
        Option.getD_some]
    | recordresourcevalue rt rn n v =>
      simp only [executeFrom, execute_instruction, _do_recordresourcevalue]
      rw [ih vars _ htlrec htlbound]
      simp only [List.map_cons, List.foldl_cons, payloadOf]
    | apicall m p o => simp [isRecordInstr] at hi
    | copyvariable f t => simp [isRecordInstr] at hi
    | storevalue nm v => simp [isRecordInstr] at hi
    | jpsearch e iv o => simp [isRecordInstr] at hi
    | builtinfunction f a o => simp [isRecordInstr] at hi
    | other c fs => simp [isRecordInstr] at hi

theorem dedupFirstGo_subset (l : List String) :
    ∀ (seen : List String) (x : String), x ∈ dedupFirstGo seen l → x ∈ l := by
  induction l with
  | nil => intro seen x hx; simp [dedupFirstGo] at hx
  | cons n tl ih =>
    intro seen x hx
    by_cases hn : n ∈ seen
    · rw [dedupFirstGo, if_pos hn] at hx
      exact List.mem_cons_of_mem n (ih seen x hx)
    · rw [dedupFirstGo, if_neg hn] at hx
      rcases List.mem_cons.mp hx with hh | hh
      · simp [hh]
      · exact List.mem_cons_of_mem n (ih (n :: seen) x hh)

theorem lastAttr_const (pls : List PyDict) (k : String) (w : Value) :
    (∀ p ∈ pls, dlookup p k = some w) → pls ≠ [] →
    lastAttr pls k = some w := by
  induction pls with
  | nil => intro _ h; exact absurd rfl h
  | cons p tl ih =>
    intro hall _
    rw [lastAttr_cons]
    cases htl : tl with
    | nil =>
      rw [show lastAttr [] k = Option.none from rfl, hall p (by simp)]
      rfl
    | cons q tl2 =>
      rw [← htl, ih (fun q hq => hall q (by simp [hq])) (by simp [htl])]
      rfl

/-- Claim C1: executing any sequence of RecordResourceValue and
RecordResourceVariable instructions (attribute names distinct from the two
fixed record keys, record-variable lookups bound) succeeds and produces
exactly one record per distinct resource name, in the order each name was
first recorded; each attribute of a record holds the value written by the
last instruction recording that attribute for that name, so later writes
win per attribute and records merge rather than duplicate. -/
theorem record_instructions_merge (ext : Externals) (instrs : List Instruction)
    (vars : PyDict)
    (hrec : ∀ i ∈ instrs, isRecordInstr i = true)
    (hattr : ∀ i ∈ instrs,
      recAttrName i ≠ "name" ∧ recAttrName i ≠ "resource_type")
    (hbound : ∀ i ∈ instrs, recordVarBound i vars = true) :
    ∃ st, executeFrom ext instrs ⟨vars, []⟩ = .ok st ∧
      st.resource_values.map nameStr = dedupFirst (instrs.map recResourceName) ∧
      (st.resource_values.map nameStr).Nodup ∧
      ∀ r ∈ st.resource_values, ∀ k : String,
        dlookup r k = lastAttr
          ((instrs.filter (fun i => recResourceName i == nameStr r)).map
            (fun i => payloadOf i vars)) k := by
  have hpl : ∀ i ∈ instrs, strNamed (payloadOf i vars) ∧
      ((payloadOf i vars).map Prod.fst).Nodup ∧
      nameStr (payloadOf i vars) = recResourceName i :=
    fun i hi =>
      payloadOf_strNamed i vars (hrec i hi) (hattr i hi).1 (hattr i hi).2
  set pls := instrs.map (fun i => payloadOf i vars) with hpls
  have hplstr : ∀ p ∈ pls, strNamed p := by
    intro p hp
    obtain ⟨i, hi, hpi⟩ := List.mem_map.mp hp
    exact hpi ▸ (hpl i hi).1
  have hplkeys : ∀ p ∈ pls, (p.map Prod.fst).Nodup := by
    intro p hp
    obtain ⟨i, hi, hpi⟩ := List.mem_map.mp hp
    exact hpi ▸ (hpl i hi).2.1
  have hnames : pls.map nameStr = instrs.map recResourceName := by
    rw [hpls, List.map_map]
    exact List.map_congr_left (fun i hi => (hpl i hi).2.2)
  have hgroup := foldl_add_grouped pls [] hplstr hplkeys
    (by intro r hr; simp at hr) (by simp)
  simp only [List.map_nil, List.nil_append] at hgroup
  have hgname : ∀ nn ∈ dedupFirstGo [] (pls.map nameStr),
      nameStr ((pls.filter (fun p => nameStr p == nn)).foldl dictUpdate []) =
        nn := by
    intro nn hnn
    have hmem := dedupFirstGo_subset (pls.map nameStr) [] nn hnn
    obtain ⟨p0, hp0, hp0n⟩ := List.mem_map.mp hmem
    have hfmem : p0 ∈ pls.filter (fun p => nameStr p == nn) := by
      rw [List.mem_filter]
      exact ⟨hp0, by simp [hp0n]⟩
    have hfilstr : ∀ p ∈ pls.filter (fun p => nameStr p == nn),
        dlookup p "name" = some (.str nn) := by
      intro p hp
      obtain ⟨hpmem, hpeq⟩ := List.mem_filter.mp hp
      obtain ⟨s, hs⟩ := hplstr p hpmem
      have hsn : nameStr p = s := by rw [nameStr, hs]
      have heq : s = nn := by
        rw [← hsn]
        simpa using hpeq
      rw [hs, heq]
    have hluk : dlookup ((pls.filter
        (fun p => nameStr p == nn)).foldl dictUpdate []) "name" =
        some (.str nn) := by
      rw [dlookup_foldl_dictUpdate _ "name" []
        (fun p hp => hplkeys p (List.mem_of_mem_filter hp))]
      rw [lastAttr_const _ "name" (.str nn) hfilstr
        (List.ne_nil_of_mem hfmem)]
      rfl
    rw [nameStr, hluk]
  refine ⟨⟨vars, pls.foldl _add_to_deployed_values []⟩, ?_, ?_, ?_, ?_⟩
  · exact executeFrom_records ext instrs vars [] hrec hbound
  · show (pls.foldl _add_to_deployed_values []).map nameStr = _
    rw [hgroup, List.map_map]
    have : (dedupFirstGo [] (pls.map nameStr)).map
        (nameStr ∘ fun nn =>
          (pls.filter (fun p => nameStr p == nn)).foldl dictUpdate []) =
        (dedupFirstGo [] (pls.map nameStr)).map (fun nn => nn) :=
      List.map_congr_left (fun nn hnn => hgname nn hnn)
    rw [this, List.map_id', hnames]
    rfl
  · show ((pls.foldl _add_to_deployed_values []).map nameStr).Nodup
    rw [hgroup, List.map_map]
    have : (dedupFirstGo [] (pls.map nameStr)).map
        (nameStr ∘ fun nn =>
          (pls.filter (fun p => nameStr p == nn)).foldl dictUpdate []) =
        (dedupFirstGo [] (pls.map nameStr)).map (fun nn => nn) :=
      List.map_congr_left (fun nn hnn => hgname nn hnn)
    rw [this, List.map_id']
    exact (dedupFirstGo_nodup (pls.map nameStr) []).1
  · intro r hr k
    show dlookup r k = _
    rw [hgroup] at hr
    obtain ⟨nn, hnn, hreq⟩ := List.mem_map.mp hr
    have hrname : nameStr r = nn := by
      rw [← hreq]
      exact hgname nn hnn
    have hfilkeys : ∀ p ∈ pls.filter (fun p => nameStr p == nn),
        (p.map Prod.fst).Nodup :=
      fun p hp => hplkeys p (List.mem_of_mem_filter hp)
    have hfiltrans : pls.filter (fun p => nameStr p == nn) =
        (instrs.filter (fun i => recResourceName i == nn)).map
          (fun i => payloadOf i vars) := by
      rw [hpls, List.filter_map]
      congr 1
      apply List.filter_congr
      intro i hi
      simp only [Function.comp_apply]
      rw [(hpl i hi).2.2]
    subst hreq
    rw [hrname, dlookup_foldl_dictUpdate _ k [] hfilkeys, ← hfiltrans]
    cases lastAttr (pls.filter (fun p => nameStr p == nn)) k <;> rfl

/-- Witness for C1 at the concrete two-instruction sequence of the spec:
record an arn literal for f1, then a role through the store, yielding a
single merged record. -/
theorem record_instructions_merge_witness :
    ∃ st, executeFrom trivialExternals
        [.recordresourcevalue "lambda_function" "f1" "arn" (.str "X"),
         .recordresourcevariable "lambda_function" "f1" "role" "v"]
        ⟨[("v", Value.str "Y")], []⟩ = .ok st ∧
      st.resource_values.map nameStr = dedupFirst
        ([.recordresourcevalue "lambda_function" "f1" "arn" (Value.str "X"),
          .recordresourcevariable "lambda_function" "f1" "role"
            "v"].map recResourceName) ∧
      (st.resource_values.map nameStr).Nodup ∧
      ∀ r ∈ st.resource_values, ∀ k : String,
        dlookup r k = lastAttr
          (([.recordresourcevalue "lambda_function" "f1" "arn" (Value.str "X"),
             .recordresourcevariable "lambda_function" "f1" "role"
               "v"].filter
            (fun i => recResourceName i == nameStr r)).map
            (fun i => payloadOf i [("v", Value.str "Y")])) k :=
  record_instructions_merge trivialExternals
    [.recordresourcevalue "lambda_function" "f1" "arn" (.str "X"),
     .recordresourcevariable "lambda_function" "f1" "role" "v"]
    [("v", Value.str "Y")]
    (by decide) (by decide) (by decide)

end Chalice
